import Mathlib

/-!
Verification model of the secp256k1-zkp Bulletproofs module.

The repository ships only the public header `include/secp256k1_bulletproofs.h`;
the implementation behind the declared entry points is not part of the source
tree.  Following the specification, the operations are modelled here as
executable Lean functions over an abstract scalar field `F` (the spec treats
the elliptic-curve group and its scalar field as external collaborators).
A group element is represented by its coefficient vector over the NUMS
generator list, the blinding generator and the value generator; this is the
idealisation in which Pedersen commitments are binding and the verifier's
single multi-scalar multiplication check becomes a componentwise
linear-algebra check.  The spec explicitly leaves the exact polynomial
weighting and the internal inner-product folding open, so the model fixes one
concrete completeness-faithful choice: per-commitment aggregation weights
`z^k`, masking vectors derived deterministically from the prover nonce, and
the inner-product compression represented by transmitting the final folded
vectors.
-/

set_option linter.unusedVariables false
set_option linter.unusedSectionVars false
set_option maxRecDepth 100000

namespace Secp256k1Bp

variable {F : Type} [CommRing F] [DecidableEq F]

/-- Pointwise sum of two coefficient vectors (all uses are on equal lengths). -/
def vadd (a b : List F) : List F := List.zipWith (· + ·) a b

/-- Pointwise difference of two coefficient vectors. -/
def vsub (a b : List F) : List F := List.zipWith (· - ·) a b

/-- Pointwise (Hadamard) product of two coefficient vectors. -/
def pointMul (a b : List F) : List F := List.zipWith (· * ·) a b

/-- Scalar multiple of a coefficient vector. -/
def smulL (c : F) (a : List F) : List F := a.map (fun y => c * y)

/-- Inner product of two scalar vectors. -/
def ip (a b : List F) : F := (List.zipWith (· * ·) a b).sum

/-- The all-ones vector of length `n`. -/
def onesF (n : Nat) : List F := List.replicate n (1 : F)

/-- Little-endian bit decomposition of `v` into `n` bits, as naturals. -/
def bitsNat (v n : Nat) : List Nat := (List.range n).map (fun i => v / 2 ^ i % 2)

/-- Little-endian bit decomposition of `v` into `n` bits, cast into the field. -/
def bitsF (v n : Nat) : List F := List.map (fun b => ((b : Nat) : F)) (bitsNat v n)

/-- The vector `(2^0, 2^1, ..., 2^(n-1))` in the field. -/
def pow2F (n : Nat) : List F := (List.range n).map (fun i => ((2 ^ i : Nat) : F))

/-- Concatenated bit decompositions of a list of values, one `n`-bit block per
value, as used for the aggregate vector `a_L`. -/
def aggBits (n : Nat) : List Nat → List F
  | [] => []
  | v :: vs => bitsF v n ++ aggBits n vs

/-- Aggregation weight vector: block `k` is `z^k * (2^0, ..., 2^(n-1))`,
for `m` blocks. -/
def aggW (z : F) (n : Nat) : Nat → List F
  | 0 => []
  | m + 1 => pow2F n ++ smulL z (aggW z n m)

/-- Horner-style weighted sum `l₀ + z*l₁ + z²*l₂ + ...`. -/
def zWeighted (z : F) : List F → F
  | [] => 0
  | c :: t => c + z * zWeighted z t

/-- Modelled from the spec: the hash-to-scalar function of the Fiat-Shamir
transcript engine (`src/bulletproofs/` is absent from the tree).  Any fixed
deterministic function of the appended data is a faithful model of the
deterministic challenge derivation; a concrete polynomial fold is used so the
model stays executable. -/
def hashF (l : List F) : F := l.foldl (fun acc a => acc * 131 + a + 7) 3

/-- Modelled from the spec: deterministic derivation of prover blinding
scalars from `(nonce, index)`, as required for `rewind`. -/
def deriveScalar (nonce : F) (i : Nat) : F := nonce + hashF [(i : F)]

/-- A vector of nonce-derived blinding scalars at indices `base..base+n-1`. -/
def deriveVec (nonce : F) (base n : Nat) : List F :=
  (List.range n).map (fun j => deriveScalar nonce (base + j))

/-- A group element in the generic-group idealisation: its coefficient vectors
over the `G`-half and `H`-half of the NUMS generator list, plus coefficients
on the blinding generator and on the value generator. -/
structure GroupElt (F : Type) where
  gv : List F
  hv : List F
  bl : F
  vl : F
deriving DecidableEq

/-- Group addition, componentwise on discrete-log coefficients. -/
def geAdd (g h : GroupElt F) : GroupElt F :=
  ⟨vadd g.gv h.gv, vadd g.hv h.hv, g.bl + h.bl, g.vl + h.vl⟩

/-- Scalar multiplication of a group element. -/
def geSmul (c : F) (g : GroupElt F) : GroupElt F :=
  ⟨smulL c g.gv, smulL c g.hv, c * g.bl, c * g.vl⟩

/-- A Pedersen commitment `v * value_gen + b * blinding_gen`, padded to the
`N`-generator context. -/
def pedersenCommit (N : Nat) (v b : F) : GroupElt F :=
  ⟨List.replicate N 0, List.replicate N 0, b, v⟩

/-- Serialization of one group element into transcript scalars. -/
def geFlat (g : GroupElt F) : List F := g.gv ++ g.hv ++ [g.bl, g.vl]

/-- Serialization of a list of group elements. -/
def flattenGE : List (GroupElt F) → List F
  | [] => []
  | g :: t => geFlat g ++ flattenGE t

/-- Horner-style weighted group-element sum `C₀ + z*C₁ + z²*C₂ + ...`. -/
def zWeightedGE (N : Nat) (z : F) : List (GroupElt F) → GroupElt F
  | [] => pedersenCommit N 0 0
  | C :: t => geAdd C (geSmul z (zWeightedGE N z t))

/-- Modelled from the spec: first Fiat-Shamir challenge `z`, binding the
statement (commitments, minimum values, bit width, extra-commit bytes) and
the prover's first-round commitments `A`, `S`. -/
def transcriptZ (commits : List (GroupElt F)) (minvs : List Nat) (nbits : Nat)
    (extra : List Nat) (A S : GroupElt F) : F :=
  hashF ((1 : F) :: (((nbits : F) :: minvs.map (fun v => (v : F))) ++
    extra.map (fun b => (b : F)) ++ flattenGE commits ++ geFlat A ++ geFlat S))

/-- Modelled from the spec: second Fiat-Shamir challenge `x`, binding `z` and
the polynomial commitments `T1`, `T2`. -/
def transcriptX (z : F) (T1 T2 : GroupElt F) : F :=
  hashF ((2 : F) :: (z :: (geFlat T1 ++ geFlat T2)))

/-- The inputs of `secp256k1_bulletproof_rangeproof_prove` that the model
retains (context, scratch space and the generator blinding base are collapsed
into the generator count `gens`). -/
structure ProveArgs (F : Type) where
  gens : Nat
  values : List Nat
  minvs : List Nat
  blinds : List F
  nbits : Nat
  nonce : F
  extra : List Nat

/-- Number of commitments `n_commits` of a prove call. -/
def pM (a : ProveArgs F) : Nat := a.values.length

/-- Total bit count `N = nbits * n_commits` of a prove call. -/
def pN (a : ProveArgs F) : Nat := a.nbits * pM a

/-- The per-commitment differences `value_k - min_value_k`. -/
def pDiffs (a : ProveArgs F) : List Nat :=
  (a.values.zip a.minvs).map (fun p => p.1 - p.2)

/-- The aggregate bit vector `a_L`. -/
def pAL (a : ProveArgs F) : List F := aggBits a.nbits (pDiffs a)

/-- The shifted bit vector `a_R = a_L - 1`. -/
def pAR (a : ProveArgs F) : List F := (pAL a).map (fun y => y - 1)

/-- Nonce-derived blinding for the commitment `A`. -/
def pAlpha (a : ProveArgs F) : F := deriveScalar a.nonce 0

/-- Nonce-derived blinding for the commitment `S`. -/
def pRho (a : ProveArgs F) : F := deriveScalar a.nonce 1

/-- Nonce-derived blinding for the commitment `T1`. -/
def pTau1 (a : ProveArgs F) : F := deriveScalar a.nonce 2

/-- Nonce-derived blinding for the commitment `T2`. -/
def pTau2 (a : ProveArgs F) : F := deriveScalar a.nonce 3

/-- Nonce-derived masking vector `s_L`. -/
def pSL (a : ProveArgs F) : List F := deriveVec a.nonce 10 (pN a)

/-- Nonce-derived masking vector `s_R`. -/
def pSR (a : ProveArgs F) : List F := deriveVec a.nonce (10 + pN a) (pN a)

/-- First-round vector commitment `A` to `a_L`, `a_R`. -/
def pA (a : ProveArgs F) : GroupElt F := ⟨pAL a, pAR a, pAlpha a, 0⟩

/-- First-round vector commitment `S` to the masks `s_L`, `s_R`. -/
def pS (a : ProveArgs F) : GroupElt F := ⟨pSL a, pSR a, pRho a, 0⟩

/-- The Pedersen commitments the caller formed from `(value_k, blind_k)`. -/
def pCommits (a : ProveArgs F) : List (GroupElt F) :=
  (a.values.zip a.blinds).map (fun p => pedersenCommit (pN a) ((p.1 : Nat) : F) p.2)

/-- The challenge `z` of the prove call. -/
def pZ (a : ProveArgs F) : F :=
  transcriptZ (pCommits a) a.minvs a.nbits a.extra (pA a) (pS a)

/-- The aggregation weight vector of the prove call. -/
def pW (a : ProveArgs F) : List F := aggW (pZ a) a.nbits (pM a)

/-- Constant coefficient `l₀ = a_L - z·1` of the vector polynomial `l`. -/
def pL0 (a : ProveArgs F) : List F := vsub (pAL a) (smulL (pZ a) (onesF (pN a)))

/-- Constant coefficient `r₀ = a_R + z·1 + w` of the vector polynomial `r`. -/
def pR0 (a : ProveArgs F) : List F :=
  vadd (vadd (pAR a) (smulL (pZ a) (onesF (pN a)))) (pW a)

/-- Degree-1 coefficient `t₁` of `t(X) = ⟨l(X), r(X)⟩`. -/
def pT1s (a : ProveArgs F) : F := ip (pL0 a) (pSR a) + ip (pSL a) (pR0 a)

/-- Degree-2 coefficient `t₂` of `t(X) = ⟨l(X), r(X)⟩`. -/
def pT2s (a : ProveArgs F) : F := ip (pSL a) (pSR a)

/-- Commitment `T1` to the degree-1 coefficient. -/
def pT1 (a : ProveArgs F) : GroupElt F := pedersenCommit (pN a) (pT1s a) (pTau1 a)

/-- Commitment `T2` to the degree-2 coefficient. -/
def pT2 (a : ProveArgs F) : GroupElt F := pedersenCommit (pN a) (pT2s a) (pTau2 a)

/-- The challenge `x` of the prove call. -/
def pX (a : ProveArgs F) : F := transcriptX (pZ a) (pT1 a) (pT2 a)

/-- The final opened vector `l = l₀ + x·s_L`. -/
def pLv (a : ProveArgs F) : List F := vadd (pL0 a) (smulL (pX a) (pSL a))

/-- The final opened vector `r = r₀ + x·s_R`. -/
def pRv (a : ProveArgs F) : List F := vadd (pR0 a) (smulL (pX a) (pSR a))

/-- The aggregated blinding scalar `τ_x = τ₁x + τ₂x² + Σ z^k blind_k`. -/
def pTaux (a : ProveArgs F) : F :=
  pTau1 a * pX a + pTau2 a * pX a ^ 2 + zWeighted (pZ a) a.blinds

/-- The blinding opening `μ = α + ρx`. -/
def pMu (a : ProveArgs F) : F := pAlpha a + pRho a * pX a

/-- A serialized rangeproof, as its structured contents: the header group
elements, the final scalars, and the inner-product data (modelled by the
final folded vectors, which determine the `(L_i, R_i)` pairs). -/
structure RangeProof (F : Type) where
  A : GroupElt F
  S : GroupElt F
  T1 : GroupElt F
  T2 : GroupElt F
  taux : F
  mu : F
  t : F
  lvec : List F
  rvec : List F
deriving DecidableEq

/-- Precondition under which the modelled prover produces a proof: consistent
array lengths, a nonzero commitment count, a generator set with at least
`2 * nbits * n_commits` generators, and every value within
`[min_value, min_value + 2^nbits)`. -/
def proveOk (a : ProveArgs F) : Prop :=
  a.values.length ≠ 0 ∧ a.minvs.length = a.values.length ∧
  a.blinds.length = a.values.length ∧
  2 * a.nbits * a.values.length ≤ a.gens ∧
  ∀ p ∈ a.values.zip a.minvs, p.2 ≤ p.1 ∧ p.1 - p.2 < 2 ^ a.nbits

instance (a : ProveArgs F) : Decidable (proveOk a) := by
  unfold proveOk; exact inferInstance

/-- The proof the honest prover serializes. -/
def honestProof (a : ProveArgs F) : RangeProof F :=
  ⟨pA a, pS a, pT1 a, pT2 a, pTaux a, pMu a, ip (pLv a) (pRv a), pLv a, pRv a⟩

/-- Modelled from the spec: `secp256k1_bulletproof_rangeproof_prove` (its
implementation is absent from the tree).  Decomposes each value into bits,
commits to the bit vectors and masks, drives the transcript for `z` and `x`,
evaluates the committed polynomials at `x` and returns the serialized proof;
fails on inconsistent inputs, an undersized generator set or an
out-of-range value. -/
def secp256k1_bulletproof_rangeproof_prove (a : ProveArgs F) : Option (RangeProof F) :=
  if proveOk a then some (honestProof a) else none

/-- The challenge `z` as the verifier recomputes it from public data. -/
def vZ (p : RangeProof F) (minvs : List Nat) (commits : List (GroupElt F))
    (nbits : Nat) (extra : List Nat) : F :=
  transcriptZ commits minvs nbits extra p.A p.S

/-- The challenge `x` as the verifier recomputes it from public data. -/
def vX (p : RangeProof F) (minvs : List Nat) (commits : List (GroupElt F))
    (nbits : Nat) (extra : List Nat) : F :=
  transcriptX (vZ p minvs commits nbits extra) p.T1 p.T2

/-- The public polynomial offset `δ(z)` of the aggregate range statement. -/
def vDelta (z : F) (n m : Nat) : F :=
  z * ((n * m : Nat) : F) - z ^ 2 * ((n * m : Nat) : F) -
    z * ip (onesF (n * m)) (aggW z n m)

/-- The commitments with their minimum values folded in:
`C_k - min_value_k * value_gen`. -/
def adjCommits (N : Nat) (commits : List (GroupElt F)) (minvs : List Nat) :
    List (GroupElt F) :=
  (commits.zip minvs).map (fun p => geAdd p.1 (pedersenCommit N (-((p.2 : Nat) : F)) 0))

/-- The aggregate verification condition: statement-size checks and the two
group equations of the Bulletproofs verifier, expressed over the original
generators. -/
def verifyOk (gens : Nat) (p : RangeProof F) (minvs : List Nat)
    (commits : List (GroupElt F)) (nbits : Nat) (extra : List Nat) : Prop :=
  commits.length ≠ 0 ∧ minvs.length = commits.length ∧
  2 * nbits * commits.length ≤ gens ∧
  p.lvec.length = nbits * commits.length ∧
  p.rvec.length = nbits * commits.length ∧
  p.t = ip p.lvec p.rvec ∧
  pedersenCommit (nbits * commits.length) p.t p.taux =
    geAdd (zWeightedGE (nbits * commits.length) (vZ p minvs commits nbits extra)
        (adjCommits (nbits * commits.length) commits minvs))
      (geAdd (geSmul (vDelta (vZ p minvs commits nbits extra) nbits commits.length)
          (pedersenCommit (nbits * commits.length) 1 0))
        (geAdd (geSmul (vX p minvs commits nbits extra) p.T1)
          (geSmul (vX p minvs commits nbits extra * vX p minvs commits nbits extra) p.T2))) ∧
  geAdd (geAdd p.A (geSmul (vX p minvs commits nbits extra) p.S))
      ⟨smulL (-(vZ p minvs commits nbits extra)) (onesF (nbits * commits.length)),
        vadd (smulL (vZ p minvs commits nbits extra) (onesF (nbits * commits.length)))
          (aggW (vZ p minvs commits nbits extra) nbits commits.length), 0, 0⟩ =
    ⟨p.lvec, p.rvec, p.mu, 0⟩

instance (gens : Nat) (p : RangeProof F) (minvs : List Nat)
    (commits : List (GroupElt F)) (nbits : Nat) (extra : List Nat) :
    Decidable (verifyOk gens p minvs commits nbits extra) := by
  unfold verifyOk; exact inferInstance

/-- Modelled from the spec: `secp256k1_bulletproof_rangeproof_verify` (its
implementation is absent from the tree).  Recomputes the transcript from the
public commitments, minimum values, bit width and extra-commit bytes and
checks the aggregate equations; returns a bare boolean with no failure
diagnostics. -/
def secp256k1_bulletproof_rangeproof_verify (gens : Nat) (p : RangeProof F)
    (minvs : List Nat) (commits : List (GroupElt F)) (nbits : Nat)
    (extra : List Nat) : Bool :=
  decide (verifyOk gens p minvs commits nbits extra)

/-- Serialization of a rangeproof into a flat scalar sequence (the model's
byte string). -/
def serializeRangeProof (p : RangeProof F) : List F :=
  geFlat p.A ++ geFlat p.S ++ geFlat p.T1 ++ geFlat p.T2 ++
    [p.taux, p.mu, p.t] ++ p.lvec ++ p.rvec

/-- One proof's slot in a batch verification call: its proof, its per-proof
commitment array, minimum values and extra-commit bytes (the spec's
array-of-arrays calling convention, bundled per proof). -/
structure BatchEntry (F : Type) where
  proof : RangeProof F
  minvs : List Nat
  commits : List (GroupElt F)
  extra : List Nat

/-- Modelled from the spec: `secp256k1_bulletproof_rangeproof_verify_multi`
(its implementation is absent from the tree).  The spec fixes its semantics:
all proofs share one length `plen` and one bit width, their equations are
combined with fresh random weights into a single multiexponentiation, and the
call returns true iff every proof is valid, with no indication of which one
failed.  The random-linear-combination step is semantically the conjunction
of the individual checks, which is how the model states it. -/
def secp256k1_bulletproof_rangeproof_verify_multi (gens plen : Nat)
    (entries : List (BatchEntry F)) (nbits : Nat) : Bool :=
  entries.all (fun e =>
    decide ((serializeRangeProof e.proof).length = plen) &&
    secp256k1_bulletproof_rangeproof_verify gens e.proof e.minvs e.commits nbits e.extra)

/-- Extraction of a bit vector from recovered field elements; fails on any
entry that is not a bit. -/
def bitsFromF : List F → Option (List Nat)
  | [] => some []
  | a :: t =>
    if a = 0 then (bitsFromF t).map (fun bs => 0 :: bs)
    else if a = 1 then (bitsFromF t).map (fun bs => 1 :: bs)
    else none

/-- Little-endian recomposition of a bit list. -/
def natFromBits : List Nat → Nat
  | [] => 0
  | b :: t => b + 2 * natFromBits t

/-- The challenge `z` as `rewind` recomputes it for a single commitment. -/
def rwZ (p : RangeProof F) (minv : Nat) (commit : GroupElt F) (nbits : Nat)
    (extra : List Nat) : F :=
  transcriptZ [commit] [minv] nbits extra p.A p.S

/-- The challenge `x` as `rewind` recomputes it for a single commitment. -/
def rwX (p : RangeProof F) (minv : Nat) (commit : GroupElt F) (nbits : Nat)
    (extra : List Nat) : F :=
  transcriptX (rwZ p minv commit nbits extra) p.T1 p.T2

/-- The bit vector `a_L` as re-derived by `rewind` from the opened vector `l`
and the nonce-derived mask: `a_L = l + z·1 - x·s_L`. -/
def rwAL (p : RangeProof F) (minv : Nat) (commit : GroupElt F) (nbits : Nat)
    (nonce : F) (extra : List Nat) : List F :=
  vsub (vadd p.lvec (smulL (rwZ p minv commit nbits extra) (onesF nbits)))
    (smulL (rwX p minv commit nbits extra) (deriveVec nonce 10 nbits))

/-- The blinding factor as re-derived by `rewind` from `τ_x` and the
nonce-derived `τ₁`, `τ₂`. -/
def rwBlind (p : RangeProof F) (minv : Nat) (commit : GroupElt F) (nbits : Nat)
    (nonce : F) (extra : List Nat) : F :=
  p.taux - deriveScalar nonce 2 * rwX p minv commit nbits extra -
    deriveScalar nonce 3 * rwX p minv commit nbits extra ^ 2

/-- Modelled from the spec: `secp256k1_bulletproof_rangeproof_rewind` (its
implementation is absent from the tree).  Re-derives the per-bit blinding
values from the secret nonce, reconstructs the implied `(value, blind)` pair,
recomputes the Pedersen commitment and succeeds iff it matches the supplied
commitment. -/
def secp256k1_bulletproof_rangeproof_rewind (gens : Nat) (p : RangeProof F)
    (minv : Nat) (commit : GroupElt F) (nbits : Nat) (nonce : F)
    (extra : List Nat) : Option (Nat × F) :=
  match bitsFromF (rwAL p minv commit nbits nonce extra) with
  | none => none
  | some bits =>
    if pedersenCommit nbits ((minv + natFromBits bits : Nat) : F)
        (rwBlind p minv commit nbits nonce extra) = commit then
      some (minv + natFromBits bits, rwBlind p minv commit nbits nonce extra)
    else none

/-- Header macro `SECP256K1_BULLETPROOF_CIRCUIT_VERSION` (version number in
circuit and circuit-assignment binary files). -/
def SECP256K1_BULLETPROOF_CIRCUIT_VERSION : Nat := 1

/-- Header macro `SECP256K1_BULLETPROOF_MAX_DEPTH`; its value in the header is
60, while the comment above it reads `Maximum depth of 31 lets us validate an
aggregate of 2^25 64-bit proofs`. -/
def SECP256K1_BULLETPROOF_MAX_DEPTH : Nat := 60

/-- Header macro `SECP256K1_BULLETPROOF_MAX_PROOF`, documented as the size of
a hypothetical 31-depth rangeproof, in bytes. -/
def SECP256K1_BULLETPROOF_MAX_PROOF : Nat := 160 + 66 * 32 + 7

/-- Header macro `SECP256K1_BULLETPROOF_MAX_CIRCUIT`: maximum memory, in
bytes, that may be allocated to store a circuit representation. -/
def SECP256K1_BULLETPROOF_MAX_CIRCUIT : Nat := 1024 * 1024 * 1024

/-- Modelled from the spec: byte size of a serialized depth-`d` rangeproof
(fixed header of group elements and scalars plus `2*d` inner-product group
elements of 32 bytes each; the implementation holding the serializer is
absent from the tree).  The constant term is pinned by the header's own data
point `SECP256K1_BULLETPROOF_MAX_PROOF = 160 + 66*32 + 7` for depth 31, since
`66 = 2*31 + 4`. -/
def bulletproofProofSize (d : Nat) : Nat := 160 + (2 * d + 4) * 32 + 7

/-- Modelled from the spec: the depth gate of prove/verify as the code's
`SECP256K1_BULLETPROOF_MAX_DEPTH` macro prescribes it — a call over
`N = nbits * n_commits` total bits is accepted only when `N ≤ 2^MAX_DEPTH`,
i.e. when its inner-product recursion depth is at most `MAX_DEPTH`. -/
def depthOk (nbits m : Nat) : Bool :=
  decide (nbits * m ≤ 2 ^ SECP256K1_BULLETPROOF_MAX_DEPTH)

/-- An arithmetic circuit: commitment count, sparse constraint rows for the
left/right/output wire of each multiplication gate (each row lists the
`(constraint index, weight)` pairs the wire participates in), the implicit
bit-constraint count, and the dense per-constraint constant vector. -/
structure secp256k1_bulletproof_circuit (F : Type) where
  nCommits : Nat
  wL : List (List (Nat × F))
  wR : List (List (Nat × F))
  wO : List (List (Nat × F))
  nBitsC : Nat
  consts : List F
deriving DecidableEq

/-- An assignment to the wires of an arithmetic circuit: one left/right/output
value per multiplication gate. -/
structure secp256k1_bulletproof_circuit_assignment (F : Type) where
  aL : List F
  aR : List F
  aO : List F
deriving DecidableEq

/-- Number of multiplication gates of a circuit. -/
def nGates (c : secp256k1_bulletproof_circuit F) : Nat := c.wL.length

/-- Number of linear constraints of a circuit. -/
def nCons (c : secp256k1_bulletproof_circuit F) : Nat := c.consts.length

/-- Every constraint index referenced by a sparse row is in range. -/
def rowIdxOk (nc : Nat) (row : List (Nat × F)) : Prop := ∀ e ∈ row, e.1 < nc

/-- Structural well-formedness of a circuit: the three matrices have one row
per gate and only reference existing constraints. -/
def circWF (c : secp256k1_bulletproof_circuit F) : Prop :=
  c.wR.length = c.wL.length ∧ c.wO.length = c.wL.length ∧
  (∀ row ∈ c.wL, rowIdxOk (nCons c) row) ∧
  (∀ row ∈ c.wR, rowIdxOk (nCons c) row) ∧
  (∀ row ∈ c.wO, rowIdxOk (nCons c) row)

instance (c : secp256k1_bulletproof_circuit F) : Decidable (circWF c) := by
  unfold circWF rowIdxOk; exact inferInstance

/-- Power-of-two test on the gate count. -/
def isPow2 (n : Nat) : Bool := n != 0 && Nat.land n (n - 1) == 0

/-- Total weight with which one wire's sparse row feeds constraint `j`. -/
def rowWeight (j : Nat) (row : List (Nat × F)) : F :=
  ((row.filter (fun e => e.1 == j)).map (fun e => e.2)).sum

/-- Contribution of one wire role (all gates) to the LHS of constraint `j`. -/
def sideLHS (j : Nat) (rows : List (List (Nat × F))) (vals : List F) : F :=
  (List.zipWith (fun row a => rowWeight j row * a) rows vals).sum

/-- Left-hand side of constraint `j` under an assignment. -/
def constraintLHS (c : secp256k1_bulletproof_circuit F)
    (assn : secp256k1_bulletproof_circuit_assignment F) (j : Nat) : F :=
  sideLHS j c.wL assn.aL + sideLHS j c.wR assn.aR + sideLHS j c.wO assn.aO

/-- Satisfaction: sizes agree, every multiplication gate holds, and every
constraint row sums (weighted wire values) to its constant. -/
def evaluateOk (c : secp256k1_bulletproof_circuit F)
    (assn : secp256k1_bulletproof_circuit_assignment F) : Prop :=
  assn.aL.length = nGates c ∧ assn.aR.length = nGates c ∧
  assn.aO.length = nGates c ∧
  pointMul assn.aL assn.aR = assn.aO ∧
  ∀ j < nCons c, constraintLHS c assn j = c.consts.getD j 0

instance (c : secp256k1_bulletproof_circuit F)
    (assn : secp256k1_bulletproof_circuit_assignment F) :
    Decidable (evaluateOk c assn) := by
  unfold evaluateOk; exact inferInstance

/-- Modelled from the spec: `secp256k1_bulletproof_circuit_evaluate` (its
implementation is absent from the tree): the local satisfiability self-check
used before proving. -/
def secp256k1_bulletproof_circuit_evaluate (c : secp256k1_bulletproof_circuit F)
    (assn : secp256k1_bulletproof_circuit_assignment F) : Bool :=
  decide (evaluateOk c assn)

/-- Modelled from the spec: `secp256k1_bulletproof_circuit_eq` (its
implementation is absent from the tree): two circuits are equal iff all
parameters, all three sparse matrices and the constant vector match. -/
def secp256k1_bulletproof_circuit_eq (c0 c1 : secp256k1_bulletproof_circuit F) : Bool :=
  decide (c0 = c1)

/-- Transcript serialization of one sparse row. -/
def rowFlat : List (Nat × F) → List F
  | [] => []
  | e :: t => (e.1 : F) :: e.2 :: rowFlat t

/-- Transcript serialization of a sparse matrix. -/
def rowsFlat : List (List (Nat × F)) → List F
  | [] => []
  | r :: t => rowFlat r ++ rowsFlat t

/-- Transcript serialization of a whole circuit. -/
def circFlat (c : secp256k1_bulletproof_circuit F) : List F :=
  (c.nCommits : F) :: (nGates c : F) :: (c.nBitsC : F) :: (nCons c : F) ::
    (rowsFlat c.wL ++ rowsFlat c.wR ++ rowsFlat c.wO ++ c.consts)

/-- Combined `z`-weight of one sparse row: `Σ z^j · w` over its entries. -/
def wcz (z : F) (row : List (Nat × F)) : F :=
  (row.map (fun e => z ^ e.1 * e.2)).sum

/-- The `z`-combined linear form of one wire role over opened wire values. -/
def linSide (z : F) (rows : List (List (Nat × F))) (vals : List F) : F :=
  (List.zipWith (fun row a => wcz z row * a) rows vals).sum

/-- The vector `(y^0, ..., y^(n-1))`. -/
def ypows (y : F) (n : Nat) : List F := (List.range n).map (fun i => y ^ i)

/-- The inputs of `secp256k1_bulletproof_circuit_prove` that the model
retains; `blinds = none` models a NULL blind array (legal when there are no
commitments). -/
structure CircProveArgs (F : Type) where
  gens : Nat
  circ : secp256k1_bulletproof_circuit F
  assn : secp256k1_bulletproof_circuit_assignment F
  blinds : Option (List F)
  nonce : F
  extra : List Nat

/-- Blinding scalar for the circuit commitment `A`. -/
def cAlpha (a : CircProveArgs F) : F := deriveScalar a.nonce 4

/-- Blinding scalar for the circuit commitment `AO`. -/
def cBeta (a : CircProveArgs F) : F := deriveScalar a.nonce 5

/-- Blinding scalar for the circuit mask commitment `S`. -/
def cRho (a : CircProveArgs F) : F := deriveScalar a.nonce 6

/-- Blinding scalar for the circuit mask commitment `SO`. -/
def cRho2 (a : CircProveArgs F) : F := deriveScalar a.nonce 7

/-- Nonce-derived circuit mask vector for the left wires. -/
def cSL (a : CircProveArgs F) : List F := deriveVec a.nonce 200 (nGates a.circ)

/-- Nonce-derived circuit mask vector for the right wires. -/
def cSR (a : CircProveArgs F) : List F :=
  deriveVec a.nonce (200 + nGates a.circ) (nGates a.circ)

/-- Nonce-derived circuit mask vector for the output wires. -/
def cSO (a : CircProveArgs F) : List F :=
  deriveVec a.nonce (200 + 2 * nGates a.circ) (nGates a.circ)

/-- Commitment to the left/right wire assignment. -/
def cA (a : CircProveArgs F) : GroupElt F := ⟨a.assn.aL, a.assn.aR, cAlpha a, 0⟩

/-- Commitment to the output wire assignment. -/
def cAO (a : CircProveArgs F) : GroupElt F :=
  ⟨a.assn.aO, List.replicate (nGates a.circ) 0, cBeta a, 0⟩

/-- Commitment to the left/right masks. -/
def cS (a : CircProveArgs F) : GroupElt F := ⟨cSL a, cSR a, cRho a, 0⟩

/-- Commitment to the output mask. -/
def cSO2 (a : CircProveArgs F) : GroupElt F :=
  ⟨cSO a, List.replicate (nGates a.circ) 0, cRho2 a, 0⟩

/-- The Pedersen commitments implied by the blind array. -/
def cCommits (a : CircProveArgs F) : List (GroupElt F) :=
  (a.blinds.getD []).map (fun b => pedersenCommit (nGates a.circ) 0 b)

/-- The challenge `y` of a circuit verification transcript. -/
def cvY (circ : secp256k1_bulletproof_circuit F) (A AO : GroupElt F)
    (commits : List (GroupElt F)) (extra : List Nat) : F :=
  hashF ((3 : F) :: (circFlat circ ++ extra.map (fun b => (b : F)) ++
    flattenGE commits ++ geFlat A ++ geFlat AO))

/-- The challenge `z` of a circuit verification transcript. -/
def cvZ (y : F) (S SO : GroupElt F) : F :=
  hashF ((4 : F) :: (y :: (geFlat S ++ geFlat SO)))

/-- The challenge `x` of a circuit verification transcript. -/
def cvX (y z tl m1 m2 : F) : F := hashF ((5 : F) :: y :: z :: [tl, m1, m2])

/-- The prover's challenge `y`. -/
def cY (a : CircProveArgs F) : F := cvY a.circ (cA a) (cAO a) (cCommits a) a.extra

/-- The prover's challenge `z`. -/
def cZ (a : CircProveArgs F) : F := cvZ (cY a) (cS a) (cSO2 a)

/-- Degree-1 correction scalar of the combined linear form. -/
def cTl (a : CircProveArgs F) : F :=
  linSide (cZ a) a.circ.wL (cSL a) + linSide (cZ a) a.circ.wR (cSR a) +
    linSide (cZ a) a.circ.wO (cSO a)

/-- Degree-1 correction scalar of the combined multiplication form. -/
def cM1 (a : CircProveArgs F) : F :=
  ip (ypows (cY a) (nGates a.circ))
    (vsub (vadd (pointMul a.assn.aL (cSR a)) (pointMul (cSL a) a.assn.aR)) (cSO a))

/-- Degree-2 correction scalar of the combined multiplication form. -/
def cM2 (a : CircProveArgs F) : F :=
  ip (ypows (cY a) (nGates a.circ)) (pointMul (cSL a) (cSR a))

/-- The prover's challenge `x`. -/
def cX (a : CircProveArgs F) : F := cvX (cY a) (cZ a) (cTl a) (cM1 a) (cM2 a)

/-- Opened left wire vector `l = a_L + x·s_L`. -/
def cLv (a : CircProveArgs F) : List F := vadd a.assn.aL (smulL (cX a) (cSL a))

/-- Opened right wire vector `r = a_R + x·s_R`. -/
def cRv (a : CircProveArgs F) : List F := vadd a.assn.aR (smulL (cX a) (cSR a))

/-- Opened output wire vector `o = a_O + x·s_O`. -/
def cOv (a : CircProveArgs F) : List F := vadd a.assn.aO (smulL (cX a) (cSO a))

/-- Blinding opening for the first circuit equation. -/
def cMu1 (a : CircProveArgs F) : F := cAlpha a + cRho a * cX a

/-- Blinding opening for the second circuit equation. -/
def cMu2 (a : CircProveArgs F) : F := cBeta a + cRho2 a * cX a

/-- A serialized circuit proof. -/
structure CircProof (F : Type) where
  A : GroupElt F
  AO : GroupElt F
  S : GroupElt F
  SO : GroupElt F
  tl : F
  m1 : F
  m2 : F
  mu1 : F
  mu2 : F
  lv : List F
  rv : List F
  ov : List F
deriving DecidableEq

/-- Precondition of the modelled circuit prover: enough generators, a
well-formed power-of-two-gate circuit with at least one constraint, nonzero
blinding factors, and a satisfying assignment (a non-satisfying assignment
makes `prove` refuse, rather than emit an invalid proof). -/
def circProveOk (a : CircProveArgs F) : Prop :=
  2 * nGates a.circ ≤ a.gens ∧ circWF a.circ ∧ isPow2 (nGates a.circ) = true ∧
  1 ≤ nCons a.circ ∧ (∀ b ∈ a.blinds.getD [], b ≠ 0) ∧ evaluateOk a.circ a.assn

instance (a : CircProveArgs F) : Decidable (circProveOk a) := by
  unfold circProveOk; exact inferInstance

/-- The circuit proof the honest prover serializes. -/
def honestCircProof (a : CircProveArgs F) : CircProof F :=
  ⟨cA a, cAO a, cS a, cSO2 a, cTl a, cM1 a, cM2 a, cMu1 a, cMu2 a,
    cLv a, cRv a, cOv a⟩

/-- Modelled from the spec: `secp256k1_bulletproof_circuit_prove` (its
implementation is absent from the tree).  Commits to the assignment and to
nonce-derived masks, drives the transcript for `y`, `z`, `x`, and opens the
masked wire vectors together with the linear/multiplicative correction
scalars. -/
def secp256k1_bulletproof_circuit_prove (a : CircProveArgs F) : Option (CircProof F) :=
  if circProveOk a then some (honestCircProof a) else none

/-- The circuit verification condition; `commitOpt = none` models a NULL
commitment array, accepted as zero commitments. -/
def circVerifyOk (gens : Nat) (circ : secp256k1_bulletproof_circuit F)
    (pf : CircProof F) (commitOpt : Option (List (GroupElt F)))
    (extra : List Nat) : Prop :=
  2 * nGates circ ≤ gens ∧ circWF circ ∧ isPow2 (nGates circ) = true ∧
  pf.lv.length = nGates circ ∧ pf.rv.length = nGates circ ∧
  pf.ov.length = nGates circ ∧
  geAdd pf.A (geSmul (cvX (cvY circ pf.A pf.AO (commitOpt.getD []) extra)
      (cvZ (cvY circ pf.A pf.AO (commitOpt.getD []) extra) pf.S pf.SO)
      pf.tl pf.m1 pf.m2) pf.S) = ⟨pf.lv, pf.rv, pf.mu1, 0⟩ ∧
  geAdd pf.AO (geSmul (cvX (cvY circ pf.A pf.AO (commitOpt.getD []) extra)
      (cvZ (cvY circ pf.A pf.AO (commitOpt.getD []) extra) pf.S pf.SO)
      pf.tl pf.m1 pf.m2) pf.SO) =
    ⟨pf.ov, List.replicate (nGates circ) 0, pf.mu2, 0⟩ ∧
  linSide (cvZ (cvY circ pf.A pf.AO (commitOpt.getD []) extra) pf.S pf.SO) circ.wL pf.lv +
    linSide (cvZ (cvY circ pf.A pf.AO (commitOpt.getD []) extra) pf.S pf.SO) circ.wR pf.rv +
    linSide (cvZ (cvY circ pf.A pf.AO (commitOpt.getD []) extra) pf.S pf.SO) circ.wO pf.ov =
    zWeighted (cvZ (cvY circ pf.A pf.AO (commitOpt.getD []) extra) pf.S pf.SO) circ.consts +
      cvX (cvY circ pf.A pf.AO (commitOpt.getD []) extra)
        (cvZ (cvY circ pf.A pf.AO (commitOpt.getD []) extra) pf.S pf.SO)
        pf.tl pf.m1 pf.m2 * pf.tl ∧
  ip (ypows (cvY circ pf.A pf.AO (commitOpt.getD []) extra) (nGates circ))
      (vsub (pointMul pf.lv pf.rv) pf.ov) =
    cvX (cvY circ pf.A pf.AO (commitOpt.getD []) extra)
        (cvZ (cvY circ pf.A pf.AO (commitOpt.getD []) extra) pf.S pf.SO)
        pf.tl pf.m1 pf.m2 * pf.m1 +
      cvX (cvY circ pf.A pf.AO (commitOpt.getD []) extra)
        (cvZ (cvY circ pf.A pf.AO (commitOpt.getD []) extra) pf.S pf.SO)
        pf.tl pf.m1 pf.m2 ^ 2 * pf.m2

instance (gens : Nat) (circ : secp256k1_bulletproof_circuit F)
    (pf : CircProof F) (commitOpt : Option (List (GroupElt F)))
    (extra : List Nat) : Decidable (circVerifyOk gens circ pf commitOpt extra) := by
  unfold circVerifyOk; exact inferInstance

/-- Modelled from the spec: `secp256k1_bulletproof_circuit_verify` (its
implementation is absent from the tree).  Recomputes the transcript from the
circuit, commitments and extra-commit bytes and checks the opened equations;
a NULL commitment array (`none`) is accepted when there are no commitments. -/
def secp256k1_bulletproof_circuit_verify (gens : Nat)
    (circ : secp256k1_bulletproof_circuit F) (pf : CircProof F)
    (commitOpt : Option (List (GroupElt F))) (extra : List Nat) : Bool :=
  decide (circVerifyOk gens circ pf commitOpt extra)

/-- Modelled from the spec: the row-width helper
`secp256k1_bulletproofs_encoding_width(n_muls)` referenced by the header's
binary-format documentation (its implementation is absent from the tree):
the byte width needed to index constraints of a circuit with `n_muls`
multiplications. -/
def encoding_width (nMuls : Nat) : Nat :=
  if nMuls < 256 then 1 else if nMuls < 65536 then 2
  else if nMuls < 4294967296 then 4 else 8

/-- Little-endian read of `w` bytes from a byte list; fails when truncated. -/
def readLE : Nat → List Nat → Option (Nat × List Nat)
  | 0, bs => some (0, bs)
  | _ + 1, [] => none
  | w + 1, b :: bs => (readLE w bs).map (fun p => (b + 256 * p.1, p.2))

/-- Read one `0x20`-tagged 32-byte scalar; fails when truncated or mistagged. -/
def readScalar : List Nat → Option (Nat × List Nat)
  | [] => none
  | m :: rest => if m = 32 then readLE 32 rest else none

/-- Read one sparse-row entry: a row-width constraint index (which must be in
range) followed by a tagged scalar factor. -/
def readEntry (rw nc : Nat) (bs : List Nat) : Option ((Nat × F) × List Nat) :=
  match readLE rw bs with
  | none => none
  | some (idx, bs1) =>
    if idx < nc then
      match readScalar bs1 with
      | none => none
      | some (w, bs2) => some ((idx, ((w : Nat) : F)), bs2)
    else none

/-- Read `k` sparse-row entries. -/
def readEntries (rw nc : Nat) : Nat → List Nat → Option (List (Nat × F) × List Nat)
  | 0, bs => some ([], bs)
  | k + 1, bs =>
    match readEntry (F := F) rw nc bs with
    | none => none
    | some (e, bs1) => (readEntries rw nc k bs1).map (fun p => (e :: p.1, p.2))

/-- Read one sparse row: a row-width entry count followed by the entries. -/
def readRow (rw nc : Nat) (bs : List Nat) : Option (List (Nat × F) × List Nat) :=
  match readLE rw bs with
  | none => none
  | some (cnt, bs1) => readEntries rw nc cnt bs1

/-- Read `k` sparse rows. -/
def readRows (rw nc : Nat) : Nat → List Nat → Option (List (List (Nat × F)) × List Nat)
  | 0, bs => some ([], bs)
  | k + 1, bs =>
    match readRow (F := F) rw nc bs with
    | none => none
    | some (r, bs1) => (readRows rw nc k bs1).map (fun p => (r :: p.1, p.2))

/-- Read the dense constant vector: `k` tagged scalars. -/
def readConsts : Nat → List Nat → Option (List F × List Nat)
  | 0, bs => some ([], bs)
  | k + 1, bs =>
    match readScalar bs with
    | none => none
    | some (w, bs1) => (readConsts k bs1).map (fun p => (((w : Nat) : F) :: p.1, p.2))

/-- Modelled from the spec: memory footprint, in bytes, of the decoded
representation of a circuit with the given header counts (the allocator
sizing code is absent from the tree). -/
def circuitFootprint (nMuls nBits nCons : Nat) : Nat :=
  96 * nMuls + 32 * nCons + 8 * nBits

/-- Modelled from the spec: `secp256k1_bulletproof_circuit_decode` (its
implementation is absent from the tree), over the header-documented binary
format: version (4 bytes), commitment count (4), multiplication count (8),
bit-constraint count (8), constraint count (8), three row-width-prefixed
sparse matrices, then the dense constant vector.  Returns `none` — decoding
nothing at all — on a version mismatch, a truncated input, an out-of-range
constraint index, or a decoded representation that would exceed
`SECP256K1_BULLETPROOF_MAX_CIRCUIT` bytes. -/
def secp256k1_bulletproof_circuit_decode (bs : List Nat) :
    Option (secp256k1_bulletproof_circuit F) :=
  match readLE 4 bs with
  | none => none
  | some (ver, bs1) =>
    if ver = SECP256K1_BULLETPROOF_CIRCUIT_VERSION then
      match readLE 4 bs1 with
      | none => none
      | some (ncm, bs2) =>
        match readLE 8 bs2 with
        | none => none
        | some (nmul, bs3) =>
          match readLE 8 bs3 with
          | none => none
          | some (nbit, bs4) =>
            match readLE 8 bs4 with
            | none => none
            | some (ncon, bs5) =>
              if circuitFootprint nmul nbit ncon ≤ SECP256K1_BULLETPROOF_MAX_CIRCUIT then
                match readRows (F := F) (encoding_width nmul) ncon nmul bs5 with
                | none => none
                | some (wl, bs6) =>
                  match readRows (F := F) (encoding_width nmul) ncon nmul bs6 with
                  | none => none
                  | some (wr, bs7) =>
                    match readRows (F := F) (encoding_width nmul) ncon nmul bs7 with
                    | none => none
                    | some (wo, bs8) =>
                      match readConsts (F := F) ncon bs8 with
                      | none => none
                      | some (cs, _) => some ⟨ncm, wl, wr, wo, nbit, cs⟩
              else none
    else none

/-- The caller-owned scratch arena: a bump allocator with a capacity and a
current offset. -/
structure secp256k1_scratch_space where
  cap : Nat
  off : Nat
deriving DecidableEq

/-- Bump-allocate `sz` bytes; fails when the arena is exhausted. -/
def scratch_alloc (sz : Nat) (s : secp256k1_scratch_space) :
    Option secp256k1_scratch_space :=
  if s.off + sz ≤ s.cap then some ⟨s.cap, s.off + sz⟩ else none

/-- Record the current allocation frame. -/
def scratch_checkpoint (s : secp256k1_scratch_space) : Nat := s.off

/-- Rewind the arena to a previously recorded checkpoint. -/
def scratch_apply_checkpoint (s : secp256k1_scratch_space) (cp : Nat) :
    secp256k1_scratch_space :=
  ⟨s.cap, cp⟩

/-- Run a sequence of allocation requests against the arena. -/
def runAllocs : List Nat → secp256k1_scratch_space → Option secp256k1_scratch_space
  | [], s => some s
  | sz :: t, s =>
    match scratch_alloc sz s with
    | none => none
    | some s1 => runAllocs t s1

/-- Modelled from the spec: the temporary buffers a rangeproof verification
call draws from the arena (scratch tables for the single multiexponentiation
over `2*nbits*n_commits` generators; the allocation code is absent from the
tree). -/
def rangeVerifyAllocs (nbits m : Nat) : List Nat :=
  [32 * (2 * nbits * m), 32 * (2 * nbits * m), 64 * nbits * m + 256]

/-- Modelled from the spec: per-proof temporary buffers of a batch
verification call. -/
def multiVerifyAllocs (nbits : Nat) (entries : List (BatchEntry F)) : List Nat :=
  entries.map (fun e => 64 * nbits * e.commits.length + 256)

/-- Modelled from the spec: temporary buffers of a circuit verification
call. -/
def circVerifyAllocs (nG : Nat) : List Nat := [64 * nG, 64 * nG + 256]

/-- Modelled from the spec: `secp256k1_bulletproof_rangeproof_verify` as the
caller sees its effect on the scratch arena — a checkpoint is acquired on
entry and the arena is rewound to it on every exit path, including allocation
failure. -/
def rangeproof_verify_with_scratch (s : secp256k1_scratch_space) (gens : Nat)
    (p : RangeProof F) (minvs : List Nat) (commits : List (GroupElt F))
    (nbits : Nat) (extra : List Nat) : Bool × secp256k1_scratch_space :=
  match runAllocs (rangeVerifyAllocs nbits commits.length) s with
  | none => (false, scratch_apply_checkpoint s (scratch_checkpoint s))
  | some s1 =>
    (secp256k1_bulletproof_rangeproof_verify gens p minvs commits nbits extra,
      scratch_apply_checkpoint s1 (scratch_checkpoint s))

/-- Modelled from the spec: `secp256k1_bulletproof_rangeproof_verify_multi`
with its scratch-arena frame discipline. -/
def rangeproof_verify_multi_with_scratch (s : secp256k1_scratch_space)
    (gens plen : Nat) (entries : List (BatchEntry F)) (nbits : Nat) :
    Bool × secp256k1_scratch_space :=
  match runAllocs (multiVerifyAllocs nbits entries) s with
  | none => (false, scratch_apply_checkpoint s (scratch_checkpoint s))
  | some s1 =>
    (secp256k1_bulletproof_rangeproof_verify_multi gens plen entries nbits,
      scratch_apply_checkpoint s1 (scratch_checkpoint s))

/-- Modelled from the spec: `secp256k1_bulletproof_circuit_verify` with its
scratch-arena frame discipline. -/
def circuit_verify_with_scratch (s : secp256k1_scratch_space) (gens : Nat)
    (circ : secp256k1_bulletproof_circuit F) (pf : CircProof F)
    (commitOpt : Option (List (GroupElt F))) (extra : List Nat) :
    Bool × secp256k1_scratch_space :=
  match runAllocs (circVerifyAllocs (nGates circ)) s with
  | none => (false, scratch_apply_checkpoint s (scratch_checkpoint s))
  | some s1 =>
    (secp256k1_bulletproof_circuit_verify gens circ pf commitOpt extra,
      scratch_apply_checkpoint s1 (scratch_checkpoint s))

/-- One proof's slot in a circuit batch verification call: its circuit, its
proof, its per-proof commitment array (`none` models NULL) and extra-commit
bytes — the header's array-of-arrays calling convention, bundled per
proof. -/
structure CircBatchEntry (F : Type) where
  circ : secp256k1_bulletproof_circuit F
  proof : CircProof F
  commitOpt : Option (List (GroupElt F))
  extra : List Nat

/-- Serialization of a circuit proof into a flat scalar sequence. -/
def serializeCircProof (pf : CircProof F) : List F :=
  geFlat pf.A ++ geFlat pf.AO ++ geFlat pf.S ++ geFlat pf.SO ++
    [pf.tl, pf.m1, pf.m2, pf.mu1, pf.mu2] ++ pf.lv ++ pf.rv ++ pf.ov

/-- Every circuit of a batch has the gate count of the first one, the
header's equal-gate-count batch requirement. -/
def allSameGates : List (CircBatchEntry F) → Bool
  | [] => true
  | e :: t => t.all (fun e2 => decide (nGates e2.circ = nGates e.circ))

/-- Modelled from the spec: `secp256k1_bulletproof_circuit_verify_multi` (its
implementation is absent from the tree).  Mirrors the range-proof batching
design: all proofs share one length `plen`, the circuits must have equal gate
counts across the batch, and the randomly weighted combined
multiexponentiation accepts iff every proof is individually valid. -/
def secp256k1_bulletproof_circuit_verify_multi (gens plen : Nat)
    (entries : List (CircBatchEntry F)) : Bool :=
  allSameGates entries &&
    entries.all (fun e =>
      decide ((serializeCircProof e.proof).length = plen) &&
      secp256k1_bulletproof_circuit_verify gens e.circ e.proof e.commitOpt e.extra)

/-- Modelled from the spec: per-proof temporary buffers of a circuit batch
verification call. -/
def circVerifyMultiAllocs (entries : List (CircBatchEntry F)) : List Nat :=
  entries.map (fun e => 64 * nGates e.circ + 256)

/-- Modelled from the spec: `secp256k1_bulletproof_circuit_verify_multi` with
its scratch-arena frame discipline. -/
def circuit_verify_multi_with_scratch (s : secp256k1_scratch_space)
    (gens plen : Nat) (entries : List (CircBatchEntry F)) :
    Bool × secp256k1_scratch_space :=
  match runAllocs (circVerifyMultiAllocs entries) s with
  | none => (false, scratch_apply_checkpoint s (scratch_checkpoint s))
  | some s1 =>
    (secp256k1_bulletproof_circuit_verify_multi gens plen entries,
      scratch_apply_checkpoint s1 (scratch_checkpoint s))

/-- Little-endian fixed-width byte encoding of a natural number, the inverse
of `readLE` on values that fit the width. -/
def writeLE : Nat → Nat → List Nat
  | 0, _ => []
  | w + 1, n => n % 256 :: writeLE w (n / 256)

/-- Encoding of a `0x20`-tagged 32-byte scalar. -/
def writeScalar (n : Nat) : List Nat := 32 :: writeLE 32 n

/-- Encoding of one sparse-row entry: constraint index then tagged factor. -/
def writeEntry (rw : Nat) (e : Nat × Nat) : List Nat :=
  writeLE rw e.1 ++ writeScalar e.2

/-- Encoding of a sparse row's entry list. -/
def writeEntries (rw : Nat) : List (Nat × Nat) → List Nat
  | [] => []
  | e :: t => writeEntry rw e ++ writeEntries rw t

/-- Encoding of one sparse row: a row-width entry count then the entries. -/
def writeRow (rw : Nat) (row : List (Nat × Nat)) : List Nat :=
  writeLE rw row.length ++ writeEntries rw row

/-- Encoding of a sparse matrix, one row per gate. -/
def writeRows (rw : Nat) : List (List (Nat × Nat)) → List Nat
  | [] => []
  | row :: t => writeRow rw row ++ writeRows rw t

/-- Encoding of the dense constant vector. -/
def writeConsts : List Nat → List Nat
  | [] => []
  | c :: t => writeScalar c ++ writeConsts t

/-- The sparse row a raw (natural-number-weight) row decodes to. -/
def decodeRow (F : Type) [CommRing F] (row : List (Nat × Nat)) : List (Nat × F) :=
  row.map (fun e => (e.1, ((e.2 % 256 ^ 32 : Nat) : F)))

/-- The header-documented binary encoding of a circuit file with raw
natural-number weights: version, commitment count, multiplication count,
bit-constraint count, constraint count, the three row-width-prefixed sparse
matrices, then the dense constant vector.  A truncated circuit file is a
strict prefix of such an encoding. -/
def encodeCircuit (ncm : Nat) (wl wr wo : List (List (Nat × Nat))) (nbit : Nat)
    (cs : List Nat) : List Nat :=
  writeLE 4 1 ++ writeLE 4 ncm ++ writeLE 8 wl.length ++ writeLE 8 nbit ++
    writeLE 8 cs.length ++ writeRows (encoding_width wl.length) wl ++
    writeRows (encoding_width wl.length) wr ++
    writeRows (encoding_width wl.length) wo ++ writeConsts cs

/-- A raw sparse matrix is encodable: entry counts and constraint indices fit
the row width, and every index references an existing constraint. -/
def rowsOk (rw nc : Nat) (rows : List (List (Nat × Nat))) : Prop :=
  ∀ row ∈ rows, row.length < 256 ^ rw ∧ ∀ e ∈ row, e.1 < nc ∧ e.1 < 256 ^ rw

instance (rw nc : Nat) (rows : List (List (Nat × Nat))) :
    Decidable (rowsOk rw nc rows) := by
  unfold rowsOk; exact inferInstance

/-- A single-commitment prove call, the configuration `rewind` operates on. -/
def singleArgs (gens v mv nbits : Nat) (bl nonce : F) (extra : List Nat) :
    ProveArgs F :=
  ⟨gens, [v], [mv], [bl], nbits, nonce, extra⟩

theorem length_smulL (c : F) (a : List F) : (smulL c a).length = a.length := by
  simp [smulL]

theorem length_onesF (n : Nat) : (onesF (F := F) n).length = n := by
  simp [onesF]

theorem length_bitsF (v n : Nat) : (bitsF (F := F) v n).length = n := by
  unfold bitsF bitsNat
  rw [List.length_map, List.length_map, List.length_range]

theorem length_pow2F (n : Nat) : (pow2F (F := F) n).length = n := by
  simp [pow2F]

theorem length_deriveVec (nonce : F) (base n : Nat) :
    (deriveVec nonce base n).length = n := by
  simp [deriveVec]

theorem length_aggBits (n : Nat) (vs : List Nat) :
    (aggBits (F := F) n vs).length = vs.length * n := by
  induction vs with
  | nil => simp [aggBits]
  | cons v vs ih => simp [aggBits, length_bitsF, ih]; ring

theorem length_aggW (z : F) (n m : Nat) : (aggW z n m).length = m * n := by
  induction m with
  | zero => simp [aggW]
  | succ m ih => simp [aggW, length_pow2F, length_smulL, ih]; ring

theorem ip_nil_left (b : List F) : ip ([] : List F) b = 0 := by
  simp [ip]

theorem ip_nil_right (a : List F) : ip a ([] : List F) = 0 := by
  cases a <;> simp [ip]

theorem ip_cons (a b : F) (as bs : List F) :
    ip (a :: as) (b :: bs) = a * b + ip as bs := by
  simp [ip]

theorem ip_comm (a b : List F) : ip a b = ip b a := by
  induction a generalizing b with
  | nil => simp [ip_nil_left, ip_nil_right]
  | cons x xs ih =>
    cases b with
    | nil => simp [ip_nil_left, ip_nil_right]
    | cons y ys => rw [ip_cons, ip_cons, ih, mul_comm]

theorem ip_append {a c : List F} (h : a.length = c.length) (b d : List F) :
    ip (a ++ b) (c ++ d) = ip a c + ip b d := by
  induction a generalizing c with
  | nil =>
    cases c with
    | nil => simp [ip_nil_left]
    | cons y ys => simp at h
  | cons x xs ih =>
    cases c with
    | nil => simp at h
    | cons y ys =>
      simp only [List.cons_append, ip_cons]
      rw [ih (by simpa using h)]
      ring

theorem ip_smulL_left (c : F) (a b : List F) : ip (smulL c a) b = c * ip a b := by
  induction a generalizing b with
  | nil => simp [smulL, ip_nil_left]
  | cons x xs ih =>
    cases b with
    | nil => simp [ip_nil_right]
    | cons y ys =>
      simp only [smulL, List.map_cons, ip_cons] at *
      rw [ih]
      ring

theorem ip_smulL_right (c : F) (a b : List F) : ip a (smulL c b) = c * ip a b := by
  rw [ip_comm, ip_smulL_left, ip_comm]

theorem ip_vadd_left {a b : List F} (h : a.length = b.length) (c : List F) :
    ip (vadd a b) c = ip a c + ip b c := by
  induction a generalizing b c with
  | nil =>
    cases b with
    | nil => simp [vadd, ip_nil_left]
    | cons y ys => simp at h
  | cons x xs ih =>
    cases b with
    | nil => simp at h
    | cons y ys =>
      cases c with
      | nil => simp [ip_nil_right]
      | cons w ws =>
        simp only [vadd, List.zipWith_cons_cons, ip_cons] at *
        rw [ih (by simpa using h)]
        ring

theorem ip_vadd_right {b c : List F} (h : b.length = c.length) (a : List F) :
    ip a (vadd b c) = ip a b + ip a c := by
  rw [ip_comm, ip_vadd_left h, ip_comm b a, ip_comm c a]

theorem ip_vsub_left {a b : List F} (h : a.length = b.length) (c : List F) :
    ip (vsub a b) c = ip a c - ip b c := by
  induction a generalizing b c with
  | nil =>
    cases b with
    | nil => simp [vsub, ip_nil_left]
    | cons y ys => simp at h
  | cons x xs ih =>
    cases b with
    | nil => simp at h
    | cons y ys =>
      cases c with
      | nil => simp [ip_nil_right]
      | cons w ws =>
        simp only [vsub, List.zipWith_cons_cons, ip_cons] at *
        rw [ih (by simpa using h)]
        ring

theorem ip_ones_left {a : List F} {n : Nat} (h : a.length = n) :
    ip (onesF n) a = a.sum := by
  induction a generalizing n with
  | nil => simp [ip_nil_right]
  | cons x xs ih =>
    cases n with
    | zero => simp at h
    | succ n =>
      simp only [onesF, List.replicate_succ, ip_cons] at *
      rw [ih (by simpa using h), List.sum_cons]
      ring

theorem ip_ones_right {a : List F} {n : Nat} (h : a.length = n) :
    ip a (onesF n) = a.sum := by
  rw [ip_comm, ip_ones_left h]

theorem sum_onesF (n : Nat) : (onesF (F := F) n).sum = (n : F) := by
  induction n with
  | zero => simp [onesF]
  | succ n ih =>
    rw [onesF, List.replicate_succ, List.sum_cons]
    rw [show List.replicate n (1 : F) = onesF n from rfl, ih]
    push_cast
    ring

theorem ip_ones_ones (n : Nat) : ip (onesF (F := F) n) (onesF n) = (n : F) := by
  rw [ip_ones_left (length_onesF n), sum_onesF]

theorem sum_map_sub_one (l : List F) :
    (l.map (fun y => y - 1)).sum = l.sum - (l.length : F) := by
  induction l with
  | nil => simp
  | cons x xs ih => simp [ih]; push_cast; ring

theorem bitsNat_succ (v n : Nat) : bitsNat v (n + 1) = v % 2 :: bitsNat (v / 2) n := by
  simp only [bitsNat, List.range_succ_eq_map, List.map_cons, List.map_map]
  congr 1
  · simp
  · apply List.map_congr_left
    intro i _
    simp only [Function.comp]
    rw [Nat.div_div_eq_div_mul, ← pow_succ']

theorem bitsF_succ (v n : Nat) :
    bitsF (F := F) v (n + 1) = ((v % 2 : Nat) : F) :: bitsF (v / 2) n := by
  simp [bitsF, bitsNat_succ]

theorem pow2F_succ (n : Nat) :
    pow2F (F := F) (n + 1) = (1 : F) :: smulL 2 (pow2F n) := by
  simp only [pow2F, List.range_succ_eq_map, List.map_cons, List.map_map, smulL]
  congr 1
  · simp
  · apply List.map_congr_left
    intro i _
    simp only [Function.comp]
    push_cast [pow_succ']
    ring

theorem ip_bitsF_pow2F (v n : Nat) :
    ip (bitsF (F := F) v n) (pow2F n) = ((v % 2 ^ n : Nat) : F) := by
  induction n generalizing v with
  | zero => simp [bitsF, bitsNat, pow2F, ip_nil_left, Nat.mod_one]
  | succ n ih =>
    rw [bitsF_succ, pow2F_succ, ip_cons, ip_smulL_right, ih]
    have h2 : (2 : Nat) ^ (n + 1) = 2 * 2 ^ n := by rw [pow_succ']
    rw [h2, Nat.mod_mul]
    push_cast
    ring

theorem ip_aggBits_aggW (z : F) (n : Nat) (vs : List Nat) :
    ip (aggBits n vs) (aggW z n vs.length) =
      zWeighted z (vs.map (fun v => ((v % 2 ^ n : Nat) : F))) := by
  induction vs with
  | nil => simp [aggBits, aggW, zWeighted, ip_nil_left]
  | cons v vs ih =>
    show ip (bitsF v n ++ aggBits n vs) (pow2F n ++ smulL z (aggW z n vs.length)) = _
    rw [ip_append (by rw [length_bitsF, length_pow2F]), ip_bitsF_pow2F,
      ip_smulL_right, ih]
    simp [zWeighted]

theorem aggBits_mem (n : Nat) (vs : List Nat) :
    ∀ y ∈ aggBits (F := F) n vs, y = 0 ∨ y = 1 := by
  induction vs with
  | nil => simp [aggBits]
  | cons v vs ih =>
    intro y hy
    rw [aggBits, List.mem_append] at hy
    rcases hy with hy | hy
    · simp only [bitsF, bitsNat, List.mem_map, List.mem_range] at hy
      obtain ⟨b, ⟨i, _, rfl⟩, rfl⟩ := hy
      rcases Nat.mod_two_eq_zero_or_one (v / 2 ^ i) with h | h <;> rw [h] <;> simp
    · exact ih y hy

theorem ip_bits_self_sub_one (l : List F) (h : ∀ y ∈ l, y = 0 ∨ y = 1) :
    ip l (l.map (fun y => y - 1)) = 0 := by
  induction l with
  | nil => simp [ip_nil_left]
  | cons x xs ih =>
    simp only [List.map_cons, ip_cons]
    rw [ih (fun y hy => h y (List.mem_cons_of_mem _ hy))]
    rcases h x (List.mem_cons_self _ _) with hx | hx <;> rw [hx] <;> ring

theorem vadd_replicate_zero (n : Nat) :
    vadd (List.replicate n (0 : F)) (List.replicate n 0) = List.replicate n 0 := by
  apply List.ext_getElem
  · simp [vadd]
  · intro i h1 h2
    simp [vadd]

theorem smulL_replicate_zero (c : F) (n : Nat) :
    smulL c (List.replicate n (0 : F)) = List.replicate n 0 := by
  simp [smulL, List.map_replicate]

theorem geAdd_pedersen (N : Nat) (v b v2 b2 : F) :
    geAdd (pedersenCommit N v b) (pedersenCommit N v2 b2) =
      pedersenCommit N (v + v2) (b + b2) := by
  simp [geAdd, pedersenCommit, vadd_replicate_zero]

theorem geSmul_pedersen (N : Nat) (c v b : F) :
    geSmul c (pedersenCommit N v b) = pedersenCommit N (c * v) (c * b) := by
  simp [geSmul, pedersenCommit, smulL_replicate_zero]

theorem zWeightedGE_pedersen (N : Nat) (z : F) (pairs : List (F × F)) :
    zWeightedGE N z (pairs.map (fun p => pedersenCommit N p.1 p.2)) =
      pedersenCommit N (zWeighted z (pairs.map Prod.fst))
        (zWeighted z (pairs.map Prod.snd)) := by
  induction pairs with
  | nil => simp [zWeightedGE, zWeighted]
  | cons p t ih =>
    simp only [List.map_cons, zWeightedGE, zWeighted, ih, geSmul_pedersen,
      geAdd_pedersen]

theorem adjCommits_cons (N : Nat) (C : GroupElt F) (Cs : List (GroupElt F))
    (mv : Nat) (ms : List Nat) :
    adjCommits N (C :: Cs) (mv :: ms) =
      geAdd C (pedersenCommit N (-((mv : Nat) : F)) 0) :: adjCommits N Cs ms := by
  simp [adjCommits]

theorem zWeightedGE_adj (N : Nat) (z : F) (vs ms : List Nat) (bs : List F)
    (h1 : ms.length = vs.length) (h2 : bs.length = vs.length) :
    zWeightedGE N z
      (adjCommits N ((vs.zip bs).map (fun p => pedersenCommit N ((p.1 : Nat) : F) p.2)) ms) =
      pedersenCommit N
        (zWeighted z (List.zipWith (fun v mv => ((v : Nat) : F) - ((mv : Nat) : F)) vs ms))
        (zWeighted z bs) := by
  induction vs generalizing ms bs with
  | nil =>
    cases ms with
    | cons _ _ => simp at h1
    | nil =>
      cases bs with
      | cons _ _ => simp at h2
      | nil => simp [adjCommits, zWeightedGE, zWeighted]
  | cons v vs ih =>
    cases ms with
    | nil => simp at h1
    | cons mv ms =>
      cases bs with
      | nil => simp at h2
      | cons b bs =>
        rw [List.zip_cons_cons, List.map_cons, adjCommits_cons, zWeightedGE,
          ih ms bs (by simpa using h1) (by simpa using h2),
          geSmul_pedersen, geAdd_pedersen, geAdd_pedersen]
        rw [List.zipWith_cons_cons]
        simp only [zWeighted]
        congr 1 <;> ring

theorem length_pDiffs (a : ProveArgs F) (hm : a.minvs.length = a.values.length) :
    (pDiffs a).length = pM a := by
  simp [pDiffs, pM, hm]

theorem length_pAL (a : ProveArgs F) (hm : a.minvs.length = a.values.length) :
    (pAL a).length = pN a := by
  rw [pAL, length_aggBits, length_pDiffs a hm, pN, Nat.mul_comm]

theorem length_pAR (a : ProveArgs F) (hm : a.minvs.length = a.values.length) :
    (pAR a).length = pN a := by
  rw [pAR, List.length_map, length_pAL a hm]

theorem length_pSL (a : ProveArgs F) : (pSL a).length = pN a := by
  rw [pSL, length_deriveVec]

theorem length_pSR (a : ProveArgs F) : (pSR a).length = pN a := by
  rw [pSR, length_deriveVec]

theorem length_pW (a : ProveArgs F) : (pW a).length = pN a := by
  rw [pW, length_aggW, pN, Nat.mul_comm]

theorem length_pL0 (a : ProveArgs F) (hm : a.minvs.length = a.values.length) :
    (pL0 a).length = pN a := by
  rw [pL0, vsub, List.length_zipWith, length_pAL a hm, length_smulL, length_onesF,
    Nat.min_self]

theorem length_pR0 (a : ProveArgs F) (hm : a.minvs.length = a.values.length) :
    (pR0 a).length = pN a := by
  rw [pR0, vadd, List.length_zipWith, vadd, List.length_zipWith, length_pAR a hm,
    length_smulL, length_onesF, length_pW, Nat.min_self, Nat.min_self]

theorem length_pLv (a : ProveArgs F) (hm : a.minvs.length = a.values.length) :
    (pLv a).length = pN a := by
  rw [pLv, vadd, List.length_zipWith, length_pL0 a hm, length_smulL, length_pSL,
    Nat.min_self]

theorem length_pRv (a : ProveArgs F) (hm : a.minvs.length = a.values.length) :
    (pRv a).length = pN a := by
  rw [pRv, vadd, List.length_zipWith, length_pR0 a hm, length_smulL, length_pSR,
    Nat.min_self]

theorem length_pCommits (a : ProveArgs F) (hb : a.blinds.length = a.values.length) :
    (pCommits a).length = pM a := by
  simp [pCommits, pM, hb]

theorem pDiffs_lt (a : ProveArgs F)
    (hr : ∀ p ∈ a.values.zip a.minvs, p.2 ≤ p.1 ∧ p.1 - p.2 < 2 ^ a.nbits) :
    ∀ d ∈ pDiffs a, d < 2 ^ a.nbits := by
  intro d hd
  rw [pDiffs, List.mem_map] at hd
  obtain ⟨p, hp, rfl⟩ := hd
  exact (hr p hp).2

theorem t0_identity (a : ProveArgs F) (hm : a.minvs.length = a.values.length)
    (hr : ∀ p ∈ a.values.zip a.minvs, p.2 ≤ p.1 ∧ p.1 - p.2 < 2 ^ a.nbits) :
    ip (pL0 a) (pR0 a) =
      zWeighted (pZ a) ((pDiffs a).map (fun d => ((d : Nat) : F))) +
        vDelta (pZ a) a.nbits (pM a) := by
  have hAL := length_pAL a hm
  have hAR := length_pAR a hm
  have hzs : (smulL (pZ a) (onesF (F := F) (pN a))).length = pN a := by
    rw [length_smulL, length_onesF]
  have hW := length_pW (F := F) a
  rw [pL0, pR0]
  rw [ip_vadd_right (by rw [vadd, List.length_zipWith, hAR, hzs, hW, Nat.min_self])]
  rw [ip_vadd_right (by rw [hAR, hzs])]
  rw [ip_vsub_left (by rw [hAL, hzs]), ip_vsub_left (by rw [hAL, hzs]),
    ip_vsub_left (by rw [hAL, hzs])]
  have e1 : ip (pAL a) (pAR a) = 0 := by
    rw [pAR]
    exact ip_bits_self_sub_one _ (aggBits_mem _ _)
  have e2 : ip (pAL a) (smulL (pZ a) (onesF (pN a))) = pZ a * (pAL a).sum := by
    rw [ip_smulL_right, ip_ones_right hAL]
  have e3 : ip (smulL (pZ a) (onesF (pN a))) (pAR a) =
      pZ a * ((pAL a).sum - ((pN a : Nat) : F)) := by
    rw [ip_smulL_left, ip_ones_left (by rw [hAR]), pAR, sum_map_sub_one, hAL]
  have e4 : ip (smulL (pZ a) (onesF (F := F) (pN a))) (smulL (pZ a) (onesF (pN a))) =
      pZ a * pZ a * ((pN a : Nat) : F) := by
    rw [ip_smulL_left, ip_smulL_right, ip_ones_ones]
    ring
  have e5 : ip (smulL (pZ a) (onesF (F := F) (pN a))) (pW a) =
      pZ a * ip (onesF (pN a)) (pW a) := by
    rw [ip_smulL_left]
  have e6 : ip (pAL a) (pW a) =
      zWeighted (pZ a) ((pDiffs a).map (fun d => ((d : Nat) : F))) := by
    rw [pAL, pW]
    rw [show pM a = (pDiffs a).length from (length_pDiffs a hm).symm]
    rw [ip_aggBits_aggW]
    congr 1
    apply List.map_congr_left
    intro d hd
    rw [Nat.mod_eq_of_lt (pDiffs_lt a hr d hd)]
  rw [e1, e2, e3, e4, e5, e6, vDelta]
  rw [show a.nbits * pM a = pN a from rfl]
  rw [pW]
  ring

theorem zipWith_cast_sub (vs ms : List Nat)
    (h : ∀ p ∈ vs.zip ms, p.2 ≤ p.1) :
    List.zipWith (fun v mv => ((v : Nat) : F) - ((mv : Nat) : F)) vs ms =
      ((vs.zip ms).map (fun p => p.1 - p.2)).map (fun d => ((d : Nat) : F)) := by
  induction vs generalizing ms with
  | nil => simp
  | cons v vs ih =>
    cases ms with
    | nil => simp
    | cons mv ms =>
      rw [List.zipWith_cons_cons, List.zip_cons_cons, List.map_cons, List.map_cons]
      congr 1
      · exact (Nat.cast_sub (h (v, mv) (by simp))).symm
      · exact ih ms (fun p hp => h p (List.mem_cons_of_mem _ hp))

theorem ip_pLv_pRv (a : ProveArgs F) (hm : a.minvs.length = a.values.length) :
    ip (pLv a) (pRv a) =
      ip (pL0 a) (pR0 a) + pX a * pT1s a + pX a ^ 2 * pT2s a := by
  rw [pLv, pRv]
  rw [ip_vadd_right (by rw [length_pR0 a hm, length_smulL, length_pSR])]
  rw [ip_vadd_left (by rw [length_pL0 a hm, length_smulL, length_pSL]) (pR0 a)]
  rw [ip_vadd_left (by rw [length_pL0 a hm, length_smulL, length_pSL])
    (smulL (pX a) (pSR a))]
  rw [ip_smulL_left, ip_smulL_right, ip_smulL_left, ip_smulL_right, pT1s, pT2s]
  ring

theorem check_b (a : ProveArgs F) (hm : a.minvs.length = a.values.length)
    (hb : a.blinds.length = a.values.length)
    (hr : ∀ p ∈ a.values.zip a.minvs, p.2 ≤ p.1 ∧ p.1 - p.2 < 2 ^ a.nbits) :
    pedersenCommit (pN a) (ip (pLv a) (pRv a)) (pTaux a) =
      geAdd (zWeightedGE (pN a) (pZ a) (adjCommits (pN a) (pCommits a) a.minvs))
        (geAdd (geSmul (vDelta (pZ a) a.nbits (pM a)) (pedersenCommit (pN a) 1 0))
          (geAdd (geSmul (pX a) (pT1 a)) (geSmul (pX a * pX a) (pT2 a)))) := by
  rw [pT1, pT2, geSmul_pedersen, geSmul_pedersen, geSmul_pedersen,
    geAdd_pedersen, geAdd_pedersen, pCommits,
    zWeightedGE_adj (pN a) (pZ a) a.values a.minvs a.blinds hm hb, geAdd_pedersen]
  rw [zipWith_cast_sub a.values a.minvs (fun p hp => (hr p hp).1)]
  rw [show (a.values.zip a.minvs).map (fun p => p.1 - p.2) = pDiffs a from rfl]
  simp only [pedersenCommit, GroupElt.mk.injEq]
  refine ⟨trivial, trivial, ?_, ?_⟩
  · rw [pTaux]
    ring
  · rw [ip_pLv_pRv a hm, t0_identity a hm hr]
    ring

theorem check_c (a : ProveArgs F) (hm : a.minvs.length = a.values.length) :
    geAdd (geAdd (pA a) (geSmul (pX a) (pS a)))
        ⟨smulL (-(pZ a)) (onesF (pN a)),
          vadd (smulL (pZ a) (onesF (pN a))) (pW a), 0, 0⟩ =
      ⟨pLv a, pRv a, pMu a, 0⟩ := by
  rw [pA, pS]
  simp only [geAdd, geSmul, GroupElt.mk.injEq]
  refine ⟨?_, ?_, ?_, ?_⟩
  · apply List.ext_getElem
    · simp only [vadd, List.length_zipWith, length_smulL, length_onesF,
        length_pAL a hm, length_pSL, length_pLv a hm, Nat.min_self]
    · intro i h1 h2
      simp only [vadd, vsub, pLv, pL0, smulL, onesF, List.getElem_zipWith,
        List.getElem_map, List.getElem_replicate]
      ring
  · apply List.ext_getElem
    · simp only [vadd, List.length_zipWith, length_smulL, length_onesF,
        length_pAR a hm, length_pSR, length_pW, length_pRv a hm, Nat.min_self]
    · intro i h1 h2
      simp only [vadd, vsub, pRv, pR0, smulL, onesF, List.getElem_zipWith,
        List.getElem_map, List.getElem_replicate]
      ring
  · rw [pMu]
    ring
  · ring

theorem verify_completeness (a : ProveArgs F) (h0 : a.values.length ≠ 0)
    (hm : a.minvs.length = a.values.length)
    (hb : a.blinds.length = a.values.length)
    (hg : 2 * a.nbits * a.values.length ≤ a.gens)
    (hr : ∀ p ∈ a.values.zip a.minvs, p.2 ≤ p.1 ∧ p.1 - p.2 < 2 ^ a.nbits) :
    verifyOk a.gens (honestProof a) a.minvs (pCommits a) a.nbits a.extra := by
  have hcl : (pCommits (F := F) a).length = pM a := length_pCommits a hb
  have hz : vZ (F := F) (honestProof a) a.minvs (pCommits a) a.nbits a.extra = pZ a := rfl
  have hx : vX (F := F) (honestProof a) a.minvs (pCommits a) a.nbits a.extra = pX a := rfl
  unfold verifyOk
  rw [hcl, hz, hx]
  refine ⟨h0, ?_, hg, length_pLv a hm, length_pRv a hm, rfl, ?_, ?_⟩
  · rw [hm]
    rfl
  · exact check_b a hm hb hr
  · exact check_c a hm

theorem mask_unmask (AL sL : List F) (z x : F) (n : Nat)
    (h1 : AL.length = n) (h2 : sL.length = n) :
    vsub (vadd (vadd (vsub AL (smulL z (onesF n))) (smulL x sL))
        (smulL z (onesF n))) (smulL x sL) = AL := by
  apply List.ext_getElem
  · simp [vsub, vadd, length_smulL, length_onesF, h1, h2]
  · intro i hh1 hh2
    simp only [vsub, vadd, smulL, onesF, List.getElem_zipWith, List.getElem_map,
      List.getElem_replicate]
    ring

theorem bitsFromF_bitsF [Nontrivial F] (d n : Nat) :
    bitsFromF (bitsF (F := F) d n) = some (bitsNat d n) := by
  induction n generalizing d with
  | zero => simp [bitsF, bitsNat, bitsFromF]
  | succ n ih =>
    rw [bitsF_succ, bitsNat_succ, bitsFromF]
    rcases Nat.mod_two_eq_zero_or_one d with h | h
    · rw [h]
      simp [ih]
    · rw [h]
      simp [ih, one_ne_zero]

theorem natFromBits_bitsNat (v n : Nat) : natFromBits (bitsNat v n) = v % 2 ^ n := by
  induction n generalizing v with
  | zero => simp [bitsNat, natFromBits, Nat.mod_one]
  | succ n ih =>
    rw [bitsNat_succ, natFromBits, ih, pow_succ', Nat.mod_mul]

theorem deriveScalar_sub (n1 n2 : F) (i : Nat) :
    deriveScalar n1 i - deriveScalar n2 i = n1 - n2 := by
  rw [deriveScalar, deriveScalar]
  ring

theorem pN_single (gens v mv nbits : Nat) (bl nonce : F) (extra : List Nat) :
    pN (singleArgs (F := F) gens v mv nbits bl nonce extra) = nbits := by
  simp [pN, pM, singleArgs]

theorem pCommits_single (gens v mv nbits : Nat) (bl nonce : F) (extra : List Nat) :
    pCommits (singleArgs (F := F) gens v mv nbits bl nonce extra) =
      [pedersenCommit nbits ((v : Nat) : F) bl] := by
  simp [pCommits, singleArgs, pN, pM]

theorem proveOk_single (gens v mv nbits : Nat) (bl nonce : F) (extra : List Nat)
    (hmv : mv ≤ v) (hv : v - mv < 2 ^ nbits) (hg : 2 * nbits * 1 ≤ gens) :
    proveOk (singleArgs (F := F) gens v mv nbits bl nonce extra) := by
  refine ⟨by simp [singleArgs], rfl, rfl, hg, ?_⟩
  intro p hp
  simp [singleArgs] at hp
  rw [hp]
  exact ⟨hmv, hv⟩

theorem rwZ_single (gens v mv nbits : Nat) (bl nonce : F) (extra : List Nat) :
    rwZ (honestProof (singleArgs (F := F) gens v mv nbits bl nonce extra)) mv
      (pedersenCommit nbits ((v : Nat) : F) bl) nbits extra =
    pZ (singleArgs (F := F) gens v mv nbits bl nonce extra) := by
  unfold rwZ pZ
  rw [pCommits_single]
  rfl

theorem rwX_single (gens v mv nbits : Nat) (bl nonce : F) (extra : List Nat) :
    rwX (honestProof (singleArgs (F := F) gens v mv nbits bl nonce extra)) mv
      (pedersenCommit nbits ((v : Nat) : F) bl) nbits extra =
    pX (singleArgs (F := F) gens v mv nbits bl nonce extra) := by
  unfold rwX pX
  rw [rwZ_single]
  rfl

theorem rwAL_single (gens v mv nbits : Nat) (bl nonce nonce₂ : F) (extra : List Nat) :
    rwAL (honestProof (singleArgs (F := F) gens v mv nbits bl nonce extra)) mv
      (pedersenCommit nbits ((v : Nat) : F) bl) nbits nonce₂ extra =
    vsub (vadd (pLv (singleArgs (F := F) gens v mv nbits bl nonce extra))
        (smulL (pZ (singleArgs (F := F) gens v mv nbits bl nonce extra)) (onesF nbits)))
      (smulL (pX (singleArgs (F := F) gens v mv nbits bl nonce extra))
        (deriveVec nonce₂ 10 nbits)) := by
  unfold rwAL
  rw [rwZ_single, rwX_single]
  rfl

theorem rwAL_same (gens v mv nbits : Nat) (bl nonce : F) (extra : List Nat) :
    rwAL (honestProof (singleArgs (F := F) gens v mv nbits bl nonce extra)) mv
      (pedersenCommit nbits ((v : Nat) : F) bl) nbits nonce extra =
    pAL (singleArgs (F := F) gens v mv nbits bl nonce extra) := by
  rw [rwAL_single]
  have hN := pN_single (F := F) gens v mv nbits bl nonce extra
  rw [pLv, pL0, pSL, hN]
  exact mask_unmask _ _ _ _ nbits
    ((length_pAL (singleArgs (F := F) gens v mv nbits bl nonce extra) rfl).trans hN)
    (length_deriveVec _ _ _)

theorem pAL_single (gens v mv nbits : Nat) (bl nonce : F) (extra : List Nat) :
    pAL (singleArgs (F := F) gens v mv nbits bl nonce extra) =
      bitsF (v - mv) nbits := by
  simp [pAL, pDiffs, singleArgs, aggBits]

theorem rwBlind_single (gens v mv nbits : Nat) (bl nonce nonce₂ : F) (extra : List Nat) :
    rwBlind (honestProof (singleArgs (F := F) gens v mv nbits bl nonce extra)) mv
      (pedersenCommit nbits ((v : Nat) : F) bl) nbits nonce₂ extra =
    bl + (nonce - nonce₂) *
      (pX (singleArgs (F := F) gens v mv nbits bl nonce extra) +
        pX (singleArgs (F := F) gens v mv nbits bl nonce extra) ^ 2) := by
  unfold rwBlind
  rw [rwX_single]
  show pTaux (singleArgs (F := F) gens v mv nbits bl nonce extra) -
      deriveScalar nonce₂ 2 * pX (singleArgs (F := F) gens v mv nbits bl nonce extra) -
      deriveScalar nonce₂ 3 * pX (singleArgs (F := F) gens v mv nbits bl nonce extra) ^ 2 = _
  rw [pTaux]
  rw [show pTau1 (singleArgs (F := F) gens v mv nbits bl nonce extra) =
    deriveScalar nonce 2 from rfl]
  rw [show pTau2 (singleArgs (F := F) gens v mv nbits bl nonce extra) =
    deriveScalar nonce 3 from rfl]
  rw [show (singleArgs (F := F) gens v mv nbits bl nonce extra).blinds = [bl] from rfl]
  simp only [zWeighted, deriveScalar]
  ring

theorem rewind_same_nonce [Nontrivial F] (gens v mv nbits : Nat) (bl nonce : F)
    (extra : List Nat) (hmv : mv ≤ v) (hv : v - mv < 2 ^ nbits) :
    secp256k1_bulletproof_rangeproof_rewind gens
      (honestProof (singleArgs (F := F) gens v mv nbits bl nonce extra)) mv
      (pedersenCommit nbits ((v : Nat) : F) bl) nbits nonce extra = some (v, bl) := by
  have hval : mv + natFromBits (bitsNat (v - mv) nbits) = v := by
    rw [natFromBits_bitsNat, Nat.mod_eq_of_lt hv]
    omega
  have hbl : rwBlind (honestProof (singleArgs (F := F) gens v mv nbits bl nonce extra)) mv
      (pedersenCommit nbits ((v : Nat) : F) bl) nbits nonce extra = bl := by
    rw [rwBlind_single]
    ring
  unfold secp256k1_bulletproof_rangeproof_rewind
  rw [rwAL_same, pAL_single]
  simp only [bitsFromF_bitsF]
  rw [hval, hbl, if_pos rfl]

theorem rewind_wrong_nonce [IsDomain F] (gens v mv nbits : Nat)
    (bl nonce nonce₂ : F) (extra : List Nat) (hne : nonce₂ ≠ nonce)
    (hx0 : pX (singleArgs (F := F) gens v mv nbits bl nonce extra) ≠ 0)
    (hx1 : pX (singleArgs (F := F) gens v mv nbits bl nonce extra) + 1 ≠ 0) :
    secp256k1_bulletproof_rangeproof_rewind gens
      (honestProof (singleArgs (F := F) gens v mv nbits bl nonce extra)) mv
      (pedersenCommit nbits ((v : Nat) : F) bl) nbits nonce₂ extra = none := by
  have hblne : rwBlind (honestProof (singleArgs (F := F) gens v mv nbits bl nonce extra)) mv
      (pedersenCommit nbits ((v : Nat) : F) bl) nbits nonce₂ extra ≠ bl := by
    rw [rwBlind_single]
    intro hc
    have h1 : (nonce - nonce₂) *
        (pX (singleArgs (F := F) gens v mv nbits bl nonce extra) +
          pX (singleArgs (F := F) gens v mv nbits bl nonce extra) ^ 2) = 0 :=
      add_right_eq_self.mp hc
    rcases mul_eq_zero.mp h1 with h | h
    · exact hne (sub_eq_zero.mp h).symm
    · have h2 : pX (singleArgs (F := F) gens v mv nbits bl nonce extra) *
          (1 + pX (singleArgs (F := F) gens v mv nbits bl nonce extra)) = 0 := by
        rw [mul_add, mul_one, ← pow_two]
        exact h
      rcases mul_eq_zero.mp h2 with h3 | h3
      · exact hx0 h3
      · exact hx1 (by rw [add_comm]; exact h3)
  unfold secp256k1_bulletproof_rangeproof_rewind
  cases hb2 : bitsFromF (rwAL (honestProof (singleArgs (F := F) gens v mv nbits bl nonce extra))
      mv (pedersenCommit nbits ((v : Nat) : F) bl) nbits nonce₂ extra) with
  | none => simp only [hb2]
  | some bits =>
    have hcond : ¬ (pedersenCommit nbits ((mv + natFromBits bits : Nat) : F)
        (rwBlind (honestProof (singleArgs (F := F) gens v mv nbits bl nonce extra)) mv
          (pedersenCommit nbits ((v : Nat) : F) bl) nbits nonce₂ extra) =
        pedersenCommit nbits ((v : Nat) : F) bl) :=
      fun hc => hblne (congrArg GroupElt.bl hc)
    simp only [hb2]
    rw [if_neg hcond]

theorem sum_map_zero {α : Type} (l : List α) : (l.map (fun _ => (0 : F))).sum = 0 := by
  induction l with
  | nil => simp
  | cons a t ih => simp [ih]

theorem sum_map_add {α : Type} (l : List α) (f g : α → F) :
    (l.map (fun j => f j + g j)).sum = (l.map f).sum + (l.map g).sum := by
  induction l with
  | nil => simp
  | cons a t ih => simp [ih]; ring

theorem sum_map_mul_right {α : Type} (l : List α) (f : α → F) (c : F) :
    (l.map (fun j => f j * c)).sum = (l.map f).sum * c := by
  induction l with
  | nil => simp
  | cons a t ih => simp [ih]; ring

theorem sum_map_mul_left {α : Type} (l : List α) (f : α → F) (c : F) :
    (l.map (fun j => c * f j)).sum = c * (l.map f).sum := by
  induction l with
  | nil => simp
  | cons a t ih => simp [ih]; ring

theorem rowWeight_nil (j : Nat) : rowWeight (F := F) j [] = 0 := by
  simp [rowWeight]

theorem rowWeight_cons (j : Nat) (e : Nat × F) (row : List (Nat × F)) :
    rowWeight j (e :: row) = (if e.1 = j then e.2 else 0) + rowWeight j row := by
  by_cases h : e.1 = j
  · simp [rowWeight, List.filter_cons, h]
  · simp [rowWeight, List.filter_cons, h]

theorem wcz_nil (z : F) : wcz z [] = 0 := by
  simp [wcz]

theorem wcz_cons (z : F) (e : Nat × F) (row : List (Nat × F)) :
    wcz z (e :: row) = z ^ e.1 * e.2 + wcz z row := by
  simp [wcz]

theorem sum_range_ite_pow (z : F) (j0 : Nat) (w : F) (nc : Nat) (h : j0 < nc) :
    ((List.range nc).map (fun j => z ^ j * (if j0 = j then w else 0))).sum =
      z ^ j0 * w := by
  induction nc with
  | zero => omega
  | succ nc ih =>
    rw [List.range_succ, List.map_append, List.sum_append]
    by_cases hj : j0 = nc
    · subst hj
      have hz : ((List.range j0).map (fun j => z ^ j * (if j0 = j then w else 0))).sum = 0 := by
        apply List.sum_eq_zero
        intro x hx
        rw [List.mem_map] at hx
        obtain ⟨j, hjr, rfl⟩ := hx
        rw [List.mem_range] at hjr
        rw [if_neg (by omega)]
        exact mul_zero _
      rw [hz]
      simp
    · rw [ih (by omega)]
      simp [hj]

theorem wcz_eq_sum_rowWeight (z : F) (nc : Nat) (row : List (Nat × F))
    (h : rowIdxOk nc row) :
    wcz z row = ((List.range nc).map (fun j => z ^ j * rowWeight j row)).sum := by
  induction row with
  | nil =>
    simp only [wcz_nil, rowWeight_nil, mul_zero]
    exact (sum_map_zero _).symm
  | cons e row ih =>
    rw [wcz_cons, ih (fun e2 he2 => h e2 (List.mem_cons_of_mem _ he2))]
    simp only [rowWeight_cons, mul_add]
    rw [sum_map_add, sum_range_ite_pow z e.1 e.2 nc (h e (List.mem_cons_self _ _))]

theorem sideLHS_nil_rows (j : Nat) (vals : List F) :
    sideLHS (F := F) j [] vals = 0 := by
  simp [sideLHS]

theorem sideLHS_nil_vals (j : Nat) (rows : List (List (Nat × F))) :
    sideLHS (F := F) j rows [] = 0 := by
  cases rows <;> simp [sideLHS]

theorem sideLHS_cons (j : Nat) (row : List (Nat × F)) (rows : List (List (Nat × F)))
    (a : F) (vals : List F) :
    sideLHS j (row :: rows) (a :: vals) = rowWeight j row * a + sideLHS j rows vals := by
  simp [sideLHS]

theorem linSide_nil_rows (z : F) (vals : List F) : linSide (F := F) z [] vals = 0 := by
  simp [linSide]

theorem linSide_nil_vals (z : F) (rows : List (List (Nat × F))) :
    linSide (F := F) z rows [] = 0 := by
  cases rows <;> simp [linSide]

theorem linSide_cons (z : F) (row : List (Nat × F)) (rows : List (List (Nat × F)))
    (a : F) (vals : List F) :
    linSide z (row :: rows) (a :: vals) = wcz z row * a + linSide z rows vals := by
  simp [linSide]

theorem linSide_swap (z : F) (nc : Nat) (rows : List (List (Nat × F))) (vals : List F)
    (h : ∀ row ∈ rows, rowIdxOk nc row) :
    linSide z rows vals =
      ((List.range nc).map (fun j => z ^ j * sideLHS j rows vals)).sum := by
  induction rows generalizing vals with
  | nil =>
    simp only [linSide_nil_rows, sideLHS_nil_rows, mul_zero]
    exact (sum_map_zero _).symm
  | cons row rows ih =>
    cases vals with
    | nil =>
      simp only [linSide_nil_vals, sideLHS_nil_vals, mul_zero]
      exact (sum_map_zero _).symm
    | cons a vals =>
      rw [linSide_cons, ih vals (fun r hr => h r (List.mem_cons_of_mem _ hr)),
        wcz_eq_sum_rowWeight z nc row (h row (List.mem_cons_self _ _))]
      simp only [sideLHS_cons, mul_add, ← mul_assoc]
      rw [sum_map_add, sum_map_mul_right]

theorem zWeighted_eq_sum (z : F) (l : List F) :
    zWeighted z l = ((List.range l.length).map (fun j => z ^ j * l.getD j 0)).sum := by
  induction l with
  | nil => simp [zWeighted]
  | cons c t ih =>
    rw [zWeighted, ih]
    rw [show (c :: t).length = t.length + 1 from rfl, List.range_succ_eq_map,
      List.map_cons, List.sum_cons, List.map_map]
    congr 1
    · simp
    · rw [show ((fun j => z ^ j * (c :: t).getD j 0) ∘ Nat.succ) =
        (fun j => z * (z ^ j * t.getD j 0)) from ?_]
      · rw [sum_map_mul_left]
      · funext j
        simp only [Function.comp, List.getD_cons_succ]
        rw [pow_succ']
        ring

theorem linSide_vadd (z : F) (rows : List (List (Nat × F))) (u w : List F)
    (h : u.length = w.length) :
    linSide z rows (vadd u w) = linSide z rows u + linSide z rows w := by
  induction rows generalizing u w with
  | nil => simp [linSide_nil_rows]
  | cons row rows ih =>
    cases u with
    | nil =>
      cases w with
      | nil => simp [vadd, linSide_nil_vals]
      | cons b bs => simp at h
    | cons a as =>
      cases w with
      | nil => simp at h
      | cons b bs =>
        rw [show vadd (a :: as) (b :: bs) = (a + b) :: vadd as bs from rfl]
        rw [linSide_cons, linSide_cons, linSide_cons, ih as bs (by simpa using h)]
        ring

theorem linSide_smulL (z x : F) (rows : List (List (Nat × F))) (u : List F) :
    linSide z rows (smulL x u) = x * linSide z rows u := by
  induction rows generalizing u with
  | nil => simp [linSide_nil_rows]
  | cons row rows ih =>
    cases u with
    | nil => simp [smulL, linSide_nil_vals]
    | cons a as =>
      rw [show smulL x (a :: as) = x * a :: smulL x as from rfl, linSide_cons,
        linSide_cons, ih as]
      ring

theorem lin_complete (z : F) (c : secp256k1_bulletproof_circuit F)
    (assn : secp256k1_bulletproof_circuit_assignment F) (hwf : circWF c)
    (hsat : ∀ j < nCons c, constraintLHS c assn j = c.consts.getD j 0) :
    linSide z c.wL assn.aL + linSide z c.wR assn.aR + linSide z c.wO assn.aO =
      zWeighted z c.consts := by
  rw [linSide_swap z (nCons c) c.wL assn.aL hwf.2.2.1,
    linSide_swap z (nCons c) c.wR assn.aR hwf.2.2.2.1,
    linSide_swap z (nCons c) c.wO assn.aO hwf.2.2.2.2]
  rw [← sum_map_add, ← sum_map_add]
  rw [show (fun j => z ^ j * sideLHS j c.wL assn.aL + z ^ j * sideLHS j c.wR assn.aR +
      z ^ j * sideLHS j c.wO assn.aO) = fun j => z ^ j * constraintLHS c assn j from ?_]
  · rw [zWeighted_eq_sum]
    congr 1
    apply List.map_congr_left
    intro j hj
    rw [List.mem_range] at hj
    rw [hsat j hj]
  · funext j
    rw [constraintLHS]
    ring

theorem mul_open_expand (aL aR aO sL sR sO : List F) (x : F) (n : Nat)
    (h1 : aL.length = n) (h2 : aR.length = n) (h3 : aO.length = n)
    (h4 : sL.length = n) (h5 : sR.length = n) (h6 : sO.length = n) :
    vsub (pointMul (vadd aL (smulL x sL)) (vadd aR (smulL x sR)))
        (vadd aO (smulL x sO)) =
      vadd (vadd (vsub (pointMul aL aR) aO)
        (smulL x (vsub (vadd (pointMul aL sR) (pointMul sL aR)) sO)))
        (smulL (x ^ 2) (pointMul sL sR)) := by
  apply List.ext_getElem
  · simp [vsub, vadd, pointMul, length_smulL, h1, h2, h3, h4, h5, h6]
  · intro i hh1 hh2
    simp only [vsub, vadd, pointMul, smulL, List.getElem_zipWith, List.getElem_map]
    ring

theorem ip_vsub_right {b c : List F} (h : b.length = c.length) (a : List F) :
    ip a (vsub b c) = ip a b - ip a c := by
  rw [ip_comm, ip_vsub_left h, ip_comm b a, ip_comm c a]

theorem ip_sub_self (a b : List F) : ip a (vsub b b) = 0 := by
  rw [ip_vsub_right rfl]
  ring

theorem length_cSL (a : CircProveArgs F) : (cSL a).length = nGates a.circ := by
  rw [cSL, length_deriveVec]

theorem length_cSR (a : CircProveArgs F) : (cSR a).length = nGates a.circ := by
  rw [cSR, length_deriveVec]

theorem length_cSO (a : CircProveArgs F) : (cSO a).length = nGates a.circ := by
  rw [cSO, length_deriveVec]

theorem length_ypows (y : F) (n : Nat) : (ypows y n).length = n := by
  simp [ypows]

theorem mul_complete (a : CircProveArgs F)
    (hL : a.assn.aL.length = nGates a.circ) (hR : a.assn.aR.length = nGates a.circ)
    (hO : a.assn.aO.length = nGates a.circ)
    (hmul : pointMul a.assn.aL a.assn.aR = a.assn.aO) :
    ip (ypows (cY a) (nGates a.circ)) (vsub (pointMul (cLv a) (cRv a)) (cOv a)) =
      cX a * cM1 a + cX a ^ 2 * cM2 a := by
  rw [cLv, cRv, cOv]
  rw [mul_open_expand _ _ _ _ _ _ _ (nGates a.circ) hL hR hO (length_cSL a)
    (length_cSR a) (length_cSO a)]
  rw [ip_vadd_right (by
    simp [vsub, vadd, pointMul, length_smulL, hL, hR, hO, length_cSL, length_cSR,
      length_cSO])]
  rw [ip_vadd_right (by
    simp [vsub, vadd, pointMul, length_smulL, hL, hR, hO, length_cSL, length_cSR,
      length_cSO])]
  rw [ip_smulL_right, ip_smulL_right, hmul, ip_sub_self, cM1, cM2]
  ring

theorem circ_verify_completeness (a : CircProveArgs F)
    (commitOpt : Option (List (GroupElt F))) (hcm : commitOpt.getD [] = cCommits a)
    (h : circProveOk a) :
    circVerifyOk a.gens a.circ (honestCircProof a) commitOpt a.extra := by
  obtain ⟨hg, hwf, hp2, hnc, hbl, hL, hR, hO, hmul, hsat⟩ := h
  have hy : cvY a.circ (honestCircProof a).A (honestCircProof a).AO (cCommits a)
      a.extra = cY a := rfl
  have hz : cvZ (cY a) (honestCircProof a).S (honestCircProof a).SO = cZ a := rfl
  have hx : cvX (cY a) (cZ a) (honestCircProof a).tl (honestCircProof a).m1
      (honestCircProof a).m2 = cX a := rfl
  unfold circVerifyOk
  rw [hcm, hy, hz, hx]
  refine ⟨hg, hwf, hp2, ?_, ?_, ?_, ?_, ?_, ?_, ?_⟩
  · show (cLv a).length = nGates a.circ
    rw [cLv, vadd, List.length_zipWith, hL, length_smulL, length_cSL, Nat.min_self]
  · show (cRv a).length = nGates a.circ
    rw [cRv, vadd, List.length_zipWith, hR, length_smulL, length_cSR, Nat.min_self]
  · show (cOv a).length = nGates a.circ
    rw [cOv, vadd, List.length_zipWith, hO, length_smulL, length_cSO, Nat.min_self]
  · show geAdd (cA a) (geSmul (cX a) (cS a)) = ⟨cLv a, cRv a, cMu1 a, 0⟩
    simp only [geAdd, geSmul, cA, cS, GroupElt.mk.injEq]
    refine ⟨rfl, rfl, by rw [cMu1]; ring, by ring⟩
  · show geAdd (cAO a) (geSmul (cX a) (cSO2 a)) =
      ⟨cOv a, List.replicate (nGates a.circ) 0, cMu2 a, 0⟩
    simp only [geAdd, geSmul, cAO, cSO2, GroupElt.mk.injEq]
    refine ⟨rfl, ?_, by rw [cMu2]; ring, by ring⟩
    rw [smulL_replicate_zero, vadd_replicate_zero]
  · show linSide (cZ a) a.circ.wL (cLv a) + linSide (cZ a) a.circ.wR (cRv a) +
        linSide (cZ a) a.circ.wO (cOv a) =
      zWeighted (cZ a) a.circ.consts + cX a * (honestCircProof a).tl
    have hlc := lin_complete (cZ a) a.circ a.assn
      ⟨hwf.1, hwf.2.1, hwf.2.2.1, hwf.2.2.2.1, hwf.2.2.2.2⟩ hsat
    rw [cLv, cRv, cOv]
    rw [linSide_vadd _ _ _ _ (by rw [hL, length_smulL, length_cSL])]
    rw [linSide_vadd _ _ _ _ (by rw [hR, length_smulL, length_cSR])]
    rw [linSide_vadd _ _ _ _ (by rw [hO, length_smulL, length_cSO])]
    rw [linSide_smulL, linSide_smulL, linSide_smulL]
    rw [show (honestCircProof (F := F) a).tl = cTl a from rfl, cTl, ← hlc]
    ring
  · exact mul_complete a hL hR hO hmul

theorem readLE_none {w : Nat} {bs : List Nat} (h : bs.length < w) :
    readLE w bs = none := by
  induction w generalizing bs with
  | zero => omega
  | succ w ih =>
    cases bs with
    | nil => rfl
    | cons b t =>
      show (readLE w t).map _ = none
      rw [ih (by simpa using h)]
      rfl

theorem readEntry_idx {rw nc : Nat} {bs : List Nat} {e : Nat × F} {rest : List Nat}
    (h : readEntry rw nc bs = some (e, rest)) : e.1 < nc := by
  unfold readEntry at h
  split at h
  · exact absurd h (by simp)
  · rename_i idx bs1 heq
    split at h
    · rename_i hidx
      split at h
      · exact absurd h (by simp)
      · rename_i w bs2 hs
        simp only [Option.some.injEq, Prod.mk.injEq] at h
        rw [← h.1]
        exact hidx
    · exact absurd h (by simp)

theorem readEntries_idx {rw nc : Nat} :
    ∀ {k : Nat} {bs : List Nat} {es : List (Nat × F)} {rest : List Nat},
      readEntries rw nc k bs = some (es, rest) → ∀ e ∈ es, e.1 < nc := by
  intro k
  induction k with
  | zero =>
    intro bs es rest h e he
    simp only [readEntries, Option.some.injEq, Prod.mk.injEq] at h
    rw [← h.1] at he
    simp at he
  | succ k ih =>
    intro bs es rest h e he
    unfold readEntries at h
    split at h
    · exact absurd h (by simp)
    · rename_i e1 bs1 heq
      cases hrec : readEntries (F := F) rw nc k bs1 with
      | none => rw [hrec] at h; exact absurd h (by simp)
      | some p =>
        rw [hrec] at h
        simp only [Option.map_some', Option.some.injEq, Prod.mk.injEq] at h
        rw [← h.1] at he
        rcases List.mem_cons.mp he with rfl | hmem
        · exact readEntry_idx heq
        · exact ih hrec e hmem

theorem readRow_idx {rw nc : Nat} {bs : List Nat} {row : List (Nat × F)}
    {rest : List Nat} (h : readRow rw nc bs = some (row, rest)) :
    rowIdxOk nc row := by
  unfold readRow at h
  split at h
  · exact absurd h (by simp)
  · exact fun e he => readEntries_idx h e he

theorem readRows_spec {rw nc : Nat} :
    ∀ {k : Nat} {bs : List Nat} {rows : List (List (Nat × F))} {rest : List Nat},
      readRows rw nc k bs = some (rows, rest) →
      rows.length = k ∧ ∀ row ∈ rows, rowIdxOk nc row := by
  intro k
  induction k with
  | zero =>
    intro bs rows rest h
    simp only [readRows, Option.some.injEq, Prod.mk.injEq] at h
    rw [← h.1]
    exact ⟨rfl, by simp⟩
  | succ k ih =>
    intro bs rows rest h
    unfold readRows at h
    split at h
    · exact absurd h (by simp)
    · rename_i r bs1 heq
      cases hrec : readRows (F := F) rw nc k bs1 with
      | none => rw [hrec] at h; exact absurd h (by simp)
      | some p =>
        rw [hrec] at h
        simp only [Option.map_some', Option.some.injEq, Prod.mk.injEq] at h
        rw [← h.1]
        refine ⟨by simp [(ih hrec).1], ?_⟩
        intro row hrow
        rcases List.mem_cons.mp hrow with rfl | hmem
        · exact readRow_idx heq
        · exact (ih hrec).2 row hmem

theorem readConsts_length :
    ∀ {k : Nat} {bs : List Nat} {cs : List F} {rest : List Nat},
      readConsts k bs = some (cs, rest) → cs.length = k := by
  intro k
  induction k with
  | zero =>
    intro bs cs rest h
    simp only [readConsts, Option.some.injEq, Prod.mk.injEq] at h
    rw [← h.1]
    rfl
  | succ k ih =>
    intro bs cs rest h
    unfold readConsts at h
    split at h
    · exact absurd h (by simp)
    · rename_i w bs1 heq
      cases hrec : readConsts (F := F) k bs1 with
      | none => rw [hrec] at h; exact absurd h (by simp)
      | some p =>
        rw [hrec] at h
        simp only [Option.map_some', Option.some.injEq, Prod.mk.injEq] at h
        rw [← h.1]
        simp [ih hrec]

theorem runAllocs_cap :
    ∀ {reqs : List Nat} {s s1 : secp256k1_scratch_space},
      runAllocs reqs s = some s1 → s1.cap = s.cap := by
  intro reqs
  induction reqs with
  | nil =>
    intro s s1 h
    simp only [runAllocs, Option.some.injEq] at h
    rw [← h]
  | cons sz t ih =>
    intro s s1 h
    unfold runAllocs scratch_alloc at h
    split at h
    · exact absurd h (by simp)
    · rename_i s2 heq
      rw [ih h]
      split at heq
      · simp only [Option.some.injEq] at heq
        rw [← heq]
      · exact absurd heq (by simp)

theorem decode_truncated {bs : List Nat} (h : bs.length < 4) :
    secp256k1_bulletproof_circuit_decode (F := F) bs = none := by
  unfold secp256k1_bulletproof_circuit_decode
  rw [readLE_none h]

theorem decode_version {bs : List Nat} {v : Nat} {rest : List Nat}
    (h4 : readLE 4 bs = some (v, rest))
    (hv : v ≠ SECP256K1_BULLETPROOF_CIRCUIT_VERSION) :
    secp256k1_bulletproof_circuit_decode (F := F) bs = none := by
  unfold secp256k1_bulletproof_circuit_decode
  simp only [h4]
  rw [if_neg hv]

theorem decode_wf {bs : List Nat} {c : secp256k1_bulletproof_circuit F}
    (h : secp256k1_bulletproof_circuit_decode bs = some c) :
    (∀ row ∈ c.wL, rowIdxOk (nCons c) row) ∧
    (∀ row ∈ c.wR, rowIdxOk (nCons c) row) ∧
    (∀ row ∈ c.wO, rowIdxOk (nCons c) row) ∧
    circuitFootprint (nGates c) c.nBitsC (nCons c) ≤ SECP256K1_BULLETPROOF_MAX_CIRCUIT := by
  unfold secp256k1_bulletproof_circuit_decode at h
  split at h
  · exact absurd h (by simp)
  · rename_i ver bs1 hv4
    split at h
    · split at h
      · exact absurd h (by simp)
      · rename_i ncm bs2 h4b
        split at h
        · exact absurd h (by simp)
        · rename_i nmul bs3 h8a
          split at h
          · exact absurd h (by simp)
          · rename_i nbit bs4 h8b
            split at h
            · exact absurd h (by simp)
            · rename_i ncon bs5 h8c
              split at h
              · rename_i hfp
                split at h
                · exact absurd h (by simp)
                · rename_i wl bs6 hr1
                  split at h
                  · exact absurd h (by simp)
                  · rename_i wr bs7 hr2
                    split at h
                    · exact absurd h (by simp)
                    · rename_i wo bs8 hr3
                      split at h
                      · exact absurd h (by simp)
                      · rename_i cs bs9 hc1
                        simp only [Option.some.injEq] at h
                        rw [← h]
                        have hcs := readConsts_length hc1
                        have hw1 := readRows_spec hr1
                        have hw2 := readRows_spec hr2
                        have hw3 := readRows_spec hr3
                        refine ⟨?_, ?_, ?_, ?_⟩
                        · show ∀ row ∈ wl, rowIdxOk cs.length row
                          rw [hcs]
                          exact hw1.2
                        · show ∀ row ∈ wr, rowIdxOk cs.length row
                          rw [hcs]
                          exact hw2.2
                        · show ∀ row ∈ wo, rowIdxOk cs.length row
                          rw [hcs]
                          exact hw3.2
                        · show circuitFootprint wl.length nbit cs.length ≤
                            SECP256K1_BULLETPROOF_MAX_CIRCUIT
                          rw [hcs, hw1.1]
                          exact hfp
              · exact absurd h (by simp)
    · exact absurd h (by simp)

theorem take_append_ge {α : Type} {l₁ l₂ : List α} {n : Nat} (h : l₁.length ≤ n) :
    (l₁ ++ l₂).take n = l₁ ++ l₂.take (n - l₁.length) := by
  rw [List.take_append_eq_append_take, List.take_of_length_le h]

theorem writeLE_length (w n : Nat) : (writeLE w n).length = w := by
  induction w generalizing n with
  | zero => rfl
  | succ w ih => simp [writeLE, ih]

theorem readLE_write (w n : Nat) (r : List Nat) :
    readLE w (writeLE w n ++ r) = some (n % 256 ^ w, r) := by
  induction w generalizing n with
  | zero => simp [writeLE, readLE, Nat.mod_one]
  | succ w ih =>
    show (readLE w (writeLE w (n / 256) ++ r)).map _ = _
    rw [ih]
    simp only [Option.map_some']
    rw [pow_succ', Nat.mod_mul]

theorem readLE_write_lt {w n : Nat} (h : n < 256 ^ w) (r : List Nat) :
    readLE w (writeLE w n ++ r) = some (n, r) := by
  rw [readLE_write, Nat.mod_eq_of_lt h]

theorem readLE_take_none {w n k : Nat} (h : k < w) :
    readLE w ((writeLE w n).take k) = none := by
  apply readLE_none
  rw [List.length_take, writeLE_length]
  omega

theorem readLE_length_eq {w : Nat} :
    ∀ {bs : List Nat} {v : Nat} {rest : List Nat},
      readLE w bs = some (v, rest) → bs.length = w + rest.length := by
  induction w with
  | zero =>
    intro bs v rest h
    simp only [readLE, Option.some.injEq, Prod.mk.injEq] at h
    rw [← h.2]
    omega
  | succ w ih =>
    intro bs v rest h
    cases bs with
    | nil => exact absurd h (by simp [readLE])
    | cons b t =>
      show t.length + 1 = (w + 1) + rest.length
      cases hr : readLE w t with
      | none =>
        rw [show readLE (w + 1) (b :: t) = (readLE w t).map
          (fun p => (b + 256 * p.1, p.2)) from rfl, hr] at h
        exact absurd h (by simp)
      | some p =>
        rw [show readLE (w + 1) (b :: t) = (readLE w t).map
          (fun p => (b + 256 * p.1, p.2)) from rfl, hr] at h
        simp only [Option.map_some', Option.some.injEq, Prod.mk.injEq] at h
        have h2 := ih hr
        rw [← h.2]
        omega

theorem writeScalar_length (n : Nat) : (writeScalar n).length = 33 := by
  simp [writeScalar, writeLE_length]

theorem readScalar_write (n : Nat) (r : List Nat) :
    readScalar (writeScalar n ++ r) = some (n % 256 ^ 32, r) := by
  show (if (32 : Nat) = 32 then readLE 32 (writeLE 32 n ++ r) else none) = _
  rw [if_pos (show (32 : Nat) = 32 from rfl), readLE_write]

theorem readScalar_take_none {n k : Nat} (h : k < 33) :
    readScalar ((writeScalar n).take k) = none := by
  cases k with
  | zero => rfl
  | succ j =>
    show (if (32 : Nat) = 32 then readLE 32 ((writeLE 32 n).take j) else none) = none
    rw [if_pos (show (32 : Nat) = 32 from rfl)]
    apply readLE_none
    rw [List.length_take, writeLE_length]
    omega

theorem writeEntry_length (rw : Nat) (e : Nat × Nat) :
    (writeEntry rw e).length = rw + 33 := by
  simp [writeEntry, writeLE_length, writeScalar_length]

theorem readEntry_write {rw nc : Nat} (e : Nat × Nat) (r : List Nat)
    (h1 : e.1 < 256 ^ rw) (h2 : e.1 < nc) :
    readEntry (F := F) rw nc (writeEntry rw e ++ r) =
      some ((e.1, ((e.2 % 256 ^ 32 : Nat) : F)), r) := by
  unfold readEntry writeEntry
  rw [List.append_assoc]
  simp only [readLE_write_lt h1]
  rw [if_pos h2]
  simp only [readScalar_write]

theorem readEntry_take_none {rw nc k : Nat} (e : Nat × Nat)
    (h1 : e.1 < 256 ^ rw) (h2 : e.1 < nc) (hk : k < rw + 33) :
    readEntry (F := F) rw nc ((writeEntry rw e).take k) = none := by
  unfold writeEntry
  by_cases hc : k < rw
  · rw [List.take_append_of_le_length (by rw [writeLE_length]; omega)]
    unfold readEntry
    rw [readLE_take_none hc]
  · rw [take_append_ge (by rw [writeLE_length]; omega)]
    unfold readEntry
    simp only [readLE_write_lt h1]
    rw [if_pos h2, writeLE_length]
    rw [readScalar_take_none (by omega)]

theorem writeEntries_cons_length (rw : Nat) (e : Nat × Nat) (t : List (Nat × Nat)) :
    (writeEntries rw (e :: t)).length = (rw + 33) + (writeEntries rw t).length := by
  simp [writeEntries, writeEntry_length]

theorem readEntries_write {rw nc : Nat} (row : List (Nat × Nat)) (r : List Nat)
    (h : ∀ e ∈ row, e.1 < nc ∧ e.1 < 256 ^ rw) :
    readEntries (F := F) rw nc row.length (writeEntries rw row ++ r) =
      some (decodeRow F row, r) := by
  induction row generalizing r with
  | nil => simp [writeEntries, readEntries, decodeRow]
  | cons e t ih =>
    show readEntries rw nc (t.length + 1) (writeEntry rw e ++ writeEntries rw t ++ r) = _
    unfold readEntries
    rw [List.append_assoc]
    simp only [readEntry_write e _ (h e (List.mem_cons_self _ _)).2
      (h e (List.mem_cons_self _ _)).1]
    rw [ih r (fun e2 he2 => h e2 (List.mem_cons_of_mem _ he2))]
    simp [decodeRow]

theorem readEntries_take_none {rw nc : Nat} :
    ∀ (row : List (Nat × Nat)) (k : Nat),
      (∀ e ∈ row, e.1 < nc ∧ e.1 < 256 ^ rw) →
      k < (writeEntries rw row).length →
      readEntries (F := F) rw nc row.length ((writeEntries rw row).take k) = none := by
  intro row
  induction row with
  | nil =>
    intro k h hk
    simp [writeEntries] at hk
  | cons e t ih =>
    intro k h hk
    have hlen := writeEntries_cons_length rw e t
    show readEntries rw nc (t.length + 1) ((writeEntry rw e ++ writeEntries rw t).take k) = none
    by_cases hc : k < rw + 33
    · rw [List.take_append_of_le_length (by rw [writeEntry_length]; omega)]
      unfold readEntries
      rw [readEntry_take_none e (h e (List.mem_cons_self _ _)).2
        (h e (List.mem_cons_self _ _)).1 hc]
    · rw [take_append_ge (by rw [writeEntry_length]; omega)]
      unfold readEntries
      simp only [readEntry_write e _ (h e (List.mem_cons_self _ _)).2
        (h e (List.mem_cons_self _ _)).1]
      rw [writeEntry_length]
      rw [ih (k - (rw + 33)) (fun e2 he2 => h e2 (List.mem_cons_of_mem _ he2)) (by omega)]
      rfl

theorem writeRow_length (rw : Nat) (row : List (Nat × Nat)) :
    (writeRow rw row).length = rw + (writeEntries rw row).length := by
  simp [writeRow, writeLE_length]

theorem readRow_write {rw nc : Nat} (row : List (Nat × Nat)) (r : List Nat)
    (hcnt : row.length < 256 ^ rw) (h : ∀ e ∈ row, e.1 < nc ∧ e.1 < 256 ^ rw) :
    readRow (F := F) rw nc (writeRow rw row ++ r) = some (decodeRow F row, r) := by
  unfold readRow writeRow
  rw [List.append_assoc]
  simp only [readLE_write_lt hcnt]
  exact readEntries_write row r h

theorem readRow_take_none {rw nc : Nat} (row : List (Nat × Nat)) (k : Nat)
    (hcnt : row.length < 256 ^ rw) (h : ∀ e ∈ row, e.1 < nc ∧ e.1 < 256 ^ rw)
    (hk : k < (writeRow rw row).length) :
    readRow (F := F) rw nc ((writeRow rw row).take k) = none := by
  have hlen := writeRow_length rw row
  unfold writeRow
  by_cases hc : k < rw
  · rw [List.take_append_of_le_length (by rw [writeLE_length]; omega)]
    unfold readRow
    rw [readLE_take_none hc]
  · rw [take_append_ge (by rw [writeLE_length]; omega)]
    unfold readRow
    simp only [readLE_write_lt hcnt]
    rw [writeLE_length]
    exact readEntries_take_none row (k - rw) h (by omega)

theorem writeRows_cons_length (rw : Nat) (row : List (Nat × Nat))
    (t : List (List (Nat × Nat))) :
    (writeRows rw (row :: t)).length = (writeRow rw row).length + (writeRows rw t).length := by
  simp [writeRows]

theorem readRows_write {rw nc : Nat} (rows : List (List (Nat × Nat))) (r : List Nat)
    (n : Nat) (hn : rows.length = n) (h : rowsOk rw nc rows) :
    readRows (F := F) rw nc n (writeRows rw rows ++ r) =
      some (rows.map (decodeRow F), r) := by
  induction rows generalizing r n with
  | nil =>
    rw [← hn]
    simp [writeRows, readRows]
  | cons row t ih =>
    rw [← hn]
    show readRows rw nc (t.length + 1) (writeRow rw row ++ writeRows rw t ++ r) = _
    unfold readRows
    rw [List.append_assoc]
    simp only [readRow_write row _ (h row (List.mem_cons_self _ _)).1
      (h row (List.mem_cons_self _ _)).2]
    rw [ih r t.length rfl (fun r2 hr2 => h r2 (List.mem_cons_of_mem _ hr2))]
    simp

theorem readRows_take_none {rw nc : Nat} :
    ∀ (rows : List (List (Nat × Nat))) (k n : Nat), rows.length = n →
      rowsOk rw nc rows → k < (writeRows rw rows).length →
      readRows (F := F) rw nc n ((writeRows rw rows).take k) = none := by
  intro rows
  induction rows with
  | nil =>
    intro k n hn h hk
    simp [writeRows] at hk
  | cons row t ih =>
    intro k n hn h hk
    have hlen := writeRows_cons_length rw row t
    rw [← hn]
    show readRows rw nc (t.length + 1) ((writeRow rw row ++ writeRows rw t).take k) = none
    by_cases hc : k < (writeRow rw row).length
    · rw [List.take_append_of_le_length (by omega)]
      unfold readRows
      rw [readRow_take_none row k (h row (List.mem_cons_self _ _)).1
        (h row (List.mem_cons_self _ _)).2 hc]
    · rw [take_append_ge (by omega)]
      unfold readRows
      simp only [readRow_write row _ (h row (List.mem_cons_self _ _)).1
        (h row (List.mem_cons_self _ _)).2]
      rw [ih (k - (writeRow rw row).length) t.length rfl
        (fun r2 hr2 => h r2 (List.mem_cons_of_mem _ hr2)) (by omega)]
      rfl

theorem writeConsts_cons_length (c : Nat) (t : List Nat) :
    (writeConsts (c :: t)).length = 33 + (writeConsts t).length := by
  simp [writeConsts, writeScalar_length]

theorem readConsts_write (cs : List Nat) (r : List Nat) (n : Nat)
    (hn : cs.length = n) :
    readConsts (F := F) n (writeConsts cs ++ r) =
      some (cs.map (fun m => ((m % 256 ^ 32 : Nat) : F)), r) := by
  induction cs generalizing r n with
  | nil =>
    rw [← hn]
    simp [writeConsts, readConsts]
  | cons c t ih =>
    rw [← hn]
    show readConsts (t.length + 1) (writeScalar c ++ writeConsts t ++ r) = _
    unfold readConsts
    rw [List.append_assoc]
    simp only [readScalar_write]
    rw [ih r t.length rfl]
    simp

theorem readConsts_take_none :
    ∀ (cs : List Nat) (k n : Nat), cs.length = n →
      k < (writeConsts cs).length →
      readConsts (F := F) n ((writeConsts cs).take k) = none := by
  intro cs
  induction cs with
  | nil =>
    intro k n hn hk
    simp [writeConsts] at hk
  | cons c t ih =>
    intro k n hn hk
    have hlen := writeConsts_cons_length c t
    rw [← hn]
    show readConsts (t.length + 1) ((writeScalar c ++ writeConsts t).take k) = none
    by_cases hc : k < 33
    · rw [List.take_append_of_le_length (by rw [writeScalar_length]; omega)]
      unfold readConsts
      rw [readScalar_take_none hc]
    · rw [take_append_ge (by rw [writeScalar_length]; omega)]
      unfold readConsts
      simp only [readScalar_write]
      rw [writeScalar_length]
      rw [ih (k - 33) t.length rfl (by omega)]
      rfl

theorem encodeCircuit_length (ncm : Nat) (wl wr wo : List (List (Nat × Nat)))
    (nbit : Nat) (cs : List Nat) :
    (encodeCircuit ncm wl wr wo nbit cs).length =
      32 + (writeRows (encoding_width wl.length) wl).length +
        (writeRows (encoding_width wl.length) wr).length +
        (writeRows (encoding_width wl.length) wo).length + (writeConsts cs).length := by
  simp [encodeCircuit, writeLE_length]
  omega

theorem decode_short {bs : List Nat} (h : bs.length < 32) :
    secp256k1_bulletproof_circuit_decode (F := F) bs = none := by
  unfold secp256k1_bulletproof_circuit_decode
  split
  · rfl
  · rename_i ver bs1 h1
    split
    · split
      · rfl
      · rename_i ncm bs2 h2
        split
        · rfl
        · rename_i nmul bs3 h3
          split
          · rfl
          · rename_i nbit bs4 h4
            split
            · rfl
            · rename_i ncon bs5 h5
              exfalso
              have l1 := readLE_length_eq h1
              have l2 := readLE_length_eq h2
              have l3 := readLE_length_eq h3
              have l4 := readLE_length_eq h4
              have l5 := readLE_length_eq h5
              omega
    · rfl

theorem decode_encode_take_none {ncm : Nat} {wl wr wo : List (List (Nat × Nat))}
    {nbit : Nat} {cs : List Nat}
    (hR : wr.length = wl.length) (hO : wo.length = wl.length)
    (hcm : ncm < 256 ^ 4) (hmul : wl.length < 256 ^ 8) (hbit : nbit < 256 ^ 8)
    (hcon : cs.length < 256 ^ 8)
    (hfp : circuitFootprint wl.length nbit cs.length ≤ SECP256K1_BULLETPROOF_MAX_CIRCUIT)
    (hwl : rowsOk (encoding_width wl.length) cs.length wl)
    (hwr : rowsOk (encoding_width wl.length) cs.length wr)
    (hwo : rowsOk (encoding_width wl.length) cs.length wo)
    (k : Nat) (hk : k < (encodeCircuit ncm wl wr wo nbit cs).length) :
    secp256k1_bulletproof_circuit_decode (F := F)
      ((encodeCircuit ncm wl wr wo nbit cs).take k) = none := by
  have htot := encodeCircuit_length ncm wl wr wo nbit cs
  rw [encodeCircuit]
  simp only [List.append_assoc]
  unfold secp256k1_bulletproof_circuit_decode
  by_cases h1 : k < 4
  · rw [List.take_append_of_le_length (by rw [writeLE_length]; omega)]
    rw [readLE_take_none h1]
  · rw [take_append_ge (by rw [writeLE_length]; omega), writeLE_length]
    simp only [readLE_write_lt (show (1 : Nat) < 256 ^ 4 by norm_num)]
    rw [if_pos (show (1 : Nat) = SECP256K1_BULLETPROOF_CIRCUIT_VERSION from rfl)]
    by_cases h2 : k - 4 < 4
    · rw [List.take_append_of_le_length (by rw [writeLE_length]; omega)]
      rw [readLE_take_none h2]
    · rw [take_append_ge (by rw [writeLE_length]; omega), writeLE_length]
      simp only [readLE_write_lt hcm]
      by_cases h3 : k - 4 - 4 < 8
      · rw [List.take_append_of_le_length (by rw [writeLE_length]; omega)]
        rw [readLE_take_none h3]
      · rw [take_append_ge (by rw [writeLE_length]; omega), writeLE_length]
        simp only [readLE_write_lt hmul]
        by_cases h4 : k - 4 - 4 - 8 < 8
        · rw [List.take_append_of_le_length (by rw [writeLE_length]; omega)]
          rw [readLE_take_none h4]
        · rw [take_append_ge (by rw [writeLE_length]; omega), writeLE_length]
          simp only [readLE_write_lt hbit]
          by_cases h5 : k - 4 - 4 - 8 - 8 < 8
          · rw [List.take_append_of_le_length (by rw [writeLE_length]; omega)]
            rw [readLE_take_none h5]
          · rw [take_append_ge (by rw [writeLE_length]; omega), writeLE_length]
            simp only [readLE_write_lt hcon]
            rw [if_pos hfp]
            by_cases h6 : k - 4 - 4 - 8 - 8 - 8 < (writeRows (encoding_width wl.length) wl).length
            · rw [List.take_append_of_le_length (by omega)]
              rw [readRows_take_none wl _ wl.length rfl hwl h6]
            · rw [take_append_ge (by omega)]
              simp only [readRows_write wl _ wl.length rfl hwl]
              by_cases h7 : k - 4 - 4 - 8 - 8 - 8 -
                  (writeRows (encoding_width wl.length) wl).length <
                  (writeRows (encoding_width wl.length) wr).length
              · rw [List.take_append_of_le_length (by omega)]
                rw [readRows_take_none wr _ wl.length hR hwr h7]
              · rw [take_append_ge (by omega)]
                simp only [readRows_write wr _ wl.length hR hwr]
                by_cases h8 : k - 4 - 4 - 8 - 8 - 8 -
                    (writeRows (encoding_width wl.length) wl).length -
                    (writeRows (encoding_width wl.length) wr).length <
                    (writeRows (encoding_width wl.length) wo).length
                · rw [List.take_append_of_le_length (by omega)]
                  rw [readRows_take_none wo _ wl.length hO hwo h8]
                · rw [take_append_ge (by omega)]
                  simp only [readRows_write wo _ wl.length hO hwo]
                  rw [readConsts_take_none cs _ cs.length rfl (by omega)]

theorem all_set_false {α : Type} {l : List α} {i : Nat} (hi : i < l.length)
    (e₂ : α) (f : α → Bool) (hf : f e₂ = false) : (l.set i e₂).all f = false := by
  cases hall : (l.set i e₂).all f with
  | false => rfl
  | true =>
    exfalso
    rw [List.all_eq_true] at hall
    have hlen : i < (l.set i e₂).length := by simpa using hi
    have hget : (l.set i e₂)[i] = e₂ := List.getElem_set_self hlen
    have hmem : e₂ ∈ l.set i e₂ := by
      have h2 := List.getElem_mem hlen
      rwa [hget] at h2
    have hc := hall e₂ hmem
    rw [hf] at hc
    exact Bool.false_ne_true hc

/-- Claim C1: for every value array whose entries lie within
`[min_value, min_value + 2^nbits)`, every blinding-factor array and every
nonce, `secp256k1_bulletproof_rangeproof_prove` followed by
`secp256k1_bulletproof_rangeproof_verify` on the resulting proof over the same
Pedersen commitments, generator set, bit width, value generator and
extra-commit bytes returns success. -/
theorem claim1_rangeproof_prove_verify_roundtrip (a : ProveArgs F)
    (h0 : a.values.length ≠ 0) (hm : a.minvs.length = a.values.length)
    (hb : a.blinds.length = a.values.length)
    (hg : 2 * a.nbits * a.values.length ≤ a.gens)
    (hr : ∀ p ∈ a.values.zip a.minvs, p.2 ≤ p.1 ∧ p.1 - p.2 < 2 ^ a.nbits) :
    ∃ p, secp256k1_bulletproof_rangeproof_prove a = some p ∧
      secp256k1_bulletproof_rangeproof_verify a.gens p a.minvs (pCommits a)
        a.nbits a.extra = true := by
  have hok : proveOk a := ⟨h0, hm, hb, hg, hr⟩
  refine ⟨honestProof a, ?_, ?_⟩
  · unfold secp256k1_bulletproof_rangeproof_prove
    rw [if_pos hok]
  · unfold secp256k1_bulletproof_rangeproof_verify
    exact decide_eq_true (verify_completeness a h0 hm hb hg hr)

/-- Witness for C1 over `F = ℤ`: one 2-bit range proof of the value 2 above
minimum 1, with blinding factor 5 and nonce 7. -/
theorem claim1_rangeproof_prove_verify_roundtrip_witness :
    ∃ p, secp256k1_bulletproof_rangeproof_prove
        (⟨4, [2], [1], [5], 2, 7, []⟩ : ProveArgs Int) = some p ∧
      secp256k1_bulletproof_rangeproof_verify 4 p [1]
        (pCommits (⟨4, [2], [1], [5], 2, 7, []⟩ : ProveArgs Int)) 2 [] = true :=
  claim1_rangeproof_prove_verify_roundtrip _ (by decide) (by decide) (by decide)
    (by decide) (by decide)

/-- Claim C2: `secp256k1_bulletproof_rangeproof_verify_multi` over N proofs
returns 1 iff every one of them is individually valid (given the shared
proof length of the batch calling convention), and replacing any single proof
in the batch by one that fails its individual check makes the whole batch
call return 0; the boolean result carries no indication of which proof
failed. -/
theorem claim2_verify_multi_all_or_nothing (gens plen nbits : Nat)
    (entries : List (BatchEntry F))
    (hplen : ∀ e ∈ entries, (serializeRangeProof e.proof).length = plen) :
    (secp256k1_bulletproof_rangeproof_verify_multi gens plen entries nbits = true ↔
      ∀ e ∈ entries,
        secp256k1_bulletproof_rangeproof_verify gens e.proof e.minvs e.commits
          nbits e.extra = true) ∧
    (∀ (i : Nat) (hi : i < entries.length) (p₂ : RangeProof F),
      secp256k1_bulletproof_rangeproof_verify gens p₂ entries[i].minvs
        entries[i].commits nbits entries[i].extra = false →
      secp256k1_bulletproof_rangeproof_verify_multi gens plen
        (entries.set i { entries[i] with proof := p₂ }) nbits = false) := by
  constructor
  · unfold secp256k1_bulletproof_rangeproof_verify_multi
    rw [List.all_eq_true]
    constructor
    · intro h e he
      have hh := h e he
      rw [Bool.and_eq_true] at hh
      exact hh.2
    · intro h e he
      rw [Bool.and_eq_true]
      exact ⟨decide_eq_true (hplen e he), h e he⟩
  · intro i hi p₂ hf
    unfold secp256k1_bulletproof_rangeproof_verify_multi
    apply all_set_false hi
    show (decide ((serializeRangeProof p₂).length = plen) &&
      secp256k1_bulletproof_rangeproof_verify gens p₂ entries[i].minvs
        entries[i].commits nbits entries[i].extra) = false
    rw [hf, Bool.and_false]

/-- Witness for C2 over `F = ℤ`: a one-element batch; the entry's proof slot
is replaced by a proof that fails individually, and the batch call returns
false. -/
theorem claim2_verify_multi_all_or_nothing_witness :
    secp256k1_bulletproof_rangeproof_verify_multi 4 11
      (([⟨⟨⟨[], [], 0, 0⟩, ⟨[], [], 0, 0⟩, ⟨[], [], 0, 0⟩, ⟨[], [], 0, 0⟩, 0, 0, 0,
          [], []⟩, [], [], []⟩] : List (BatchEntry Int)).set 0
        { ([⟨⟨⟨[], [], 0, 0⟩, ⟨[], [], 0, 0⟩, ⟨[], [], 0, 0⟩, ⟨[], [], 0, 0⟩, 0, 0,
            0, [], []⟩, [], [], []⟩] : List (BatchEntry Int))[0] with
          proof := ⟨⟨[], [], 1, 1⟩, ⟨[], [], 0, 0⟩, ⟨[], [], 0, 0⟩, ⟨[], [], 0, 0⟩,
            0, 0, 0, [], []⟩ }) 1 = false :=
  (claim2_verify_multi_all_or_nothing 4 11 1 _ (by decide)).2 0 (by decide) _
    (by decide)

/-- Claim C3: a proof produced by `secp256k1_bulletproof_rangeproof_prove`
with a given nonce over a single commitment is rewound by
`secp256k1_bulletproof_rangeproof_rewind` with that same nonce to exactly the
`(value, blind)` pair used at proving time, and any different nonce makes
`rewind` return 0; the different-nonce direction holds whenever the
Fiat-Shamir challenge `x` of the proof is outside the two degenerate values
`0` and `-1` (the model analogue of failure with overwhelming
probability). -/
theorem claim3_rewind_recovers_exact_opening [IsDomain F]
    (gens v mv nbits : Nat) (bl nonce : F) (extra : List Nat)
    (hmv : mv ≤ v) (hv : v - mv < 2 ^ nbits) (hg : 2 * nbits * 1 ≤ gens)
    (hx0 : pX (singleArgs (F := F) gens v mv nbits bl nonce extra) ≠ 0)
    (hx1 : pX (singleArgs (F := F) gens v mv nbits bl nonce extra) + 1 ≠ 0) :
    ∃ p, secp256k1_bulletproof_rangeproof_prove
        (singleArgs (F := F) gens v mv nbits bl nonce extra) = some p ∧
      secp256k1_bulletproof_rangeproof_rewind gens p mv
        (pedersenCommit nbits ((v : Nat) : F) bl) nbits nonce extra = some (v, bl) ∧
      ∀ nonce₂, nonce₂ ≠ nonce →
        secp256k1_bulletproof_rangeproof_rewind gens p mv
          (pedersenCommit nbits ((v : Nat) : F) bl) nbits nonce₂ extra = none := by
  refine ⟨honestProof (singleArgs (F := F) gens v mv nbits bl nonce extra), ?_,
    rewind_same_nonce gens v mv nbits bl nonce extra hmv hv,
    fun nonce₂ hne => rewind_wrong_nonce gens v mv nbits bl nonce nonce₂ extra hne hx0 hx1⟩
  unfold secp256k1_bulletproof_rangeproof_prove
  rw [if_pos (proveOk_single gens v mv nbits bl nonce extra hmv hv hg)]

/-- Witness for C3 over `F = ℤ`: the 2-bit proof of value 2 above minimum 1
with blinding 5 and nonce 7; its challenge is checked to be
non-degenerate. -/
theorem claim3_rewind_recovers_exact_opening_witness :
    ∃ p, secp256k1_bulletproof_rangeproof_prove
        (singleArgs (F := Int) 4 2 1 2 5 7 []) = some p ∧
      secp256k1_bulletproof_rangeproof_rewind 4 p 1
        (pedersenCommit 2 ((2 : Nat) : Int) 5) 2 7 [] = some (2, 5) ∧
      ∀ nonce₂, nonce₂ ≠ 7 →
        secp256k1_bulletproof_rangeproof_rewind 4 p 1
          (pedersenCommit 2 ((2 : Nat) : Int) 5) 2 nonce₂ [] = none :=
  claim3_rewind_recovers_exact_opening 4 2 1 2 5 7 [] (by decide) (by decide)
    (by decide) (by decide) (by decide)

/-- Claim C4: `secp256k1_bulletproof_rangeproof_prove` is deterministic — two
calls with identical inputs (values, min-values, blinding factors, nonce,
generators, bit width and extra-commit bytes) produce byte-identical
serialized proofs of the same length.  In the model all prover randomness is
derived from the nonce, so the prover is a pure function of its inputs. -/
theorem claim4_prove_deterministic (a b : ProveArgs F) (h : a = b) :
    Option.map serializeRangeProof (secp256k1_bulletproof_rangeproof_prove a) =
      Option.map serializeRangeProof (secp256k1_bulletproof_rangeproof_prove b) ∧
    Option.map (fun p => (serializeRangeProof p).length)
        (secp256k1_bulletproof_rangeproof_prove a) =
      Option.map (fun p => (serializeRangeProof p).length)
        (secp256k1_bulletproof_rangeproof_prove b) := by
  subst h
  exact ⟨rfl, rfl⟩

/-- Witness for C4 over `F = ℤ` at a concrete input. -/
theorem claim4_prove_deterministic_witness :
    Option.map serializeRangeProof (secp256k1_bulletproof_rangeproof_prove
        (⟨4, [2], [1], [5], 2, 7, []⟩ : ProveArgs Int)) =
      Option.map serializeRangeProof (secp256k1_bulletproof_rangeproof_prove
        (⟨4, [2], [1], [5], 2, 7, []⟩ : ProveArgs Int)) ∧
    Option.map (fun p => (serializeRangeProof p).length)
        (secp256k1_bulletproof_rangeproof_prove
          (⟨4, [2], [1], [5], 2, 7, []⟩ : ProveArgs Int)) =
      Option.map (fun p => (serializeRangeProof p).length)
        (secp256k1_bulletproof_rangeproof_prove
          (⟨4, [2], [1], [5], 2, 7, []⟩ : ProveArgs Int)) :=
  claim4_prove_deterministic _ _ rfl

/-- Claim C5: with a generator set holding fewer than `2 * nbits * n_commits`
generators, `secp256k1_bulletproof_rangeproof_verify` returns 0 regardless of
the proof, and the circuit calls (`secp256k1_bulletproof_circuit_verify`,
`secp256k1_bulletproof_circuit_prove`) fail when the set holds fewer than
`2 * n_gates` generators. -/
theorem claim5_generator_sizing :
    (∀ (gens : Nat) (p : RangeProof F) (minvs : List Nat)
        (commits : List (GroupElt F)) (nbits : Nat) (extra : List Nat),
      gens < 2 * nbits * commits.length →
      secp256k1_bulletproof_rangeproof_verify gens p minvs commits nbits extra = false) ∧
    (∀ (gens : Nat) (circ : secp256k1_bulletproof_circuit F) (pf : CircProof F)
        (commitOpt : Option (List (GroupElt F))) (extra : List Nat),
      gens < 2 * nGates circ →
      secp256k1_bulletproof_circuit_verify gens circ pf commitOpt extra = false) ∧
    (∀ a : CircProveArgs F, a.gens < 2 * nGates a.circ →
      secp256k1_bulletproof_circuit_prove a = none) := by
  refine ⟨?_, ?_, ?_⟩
  · intro gens p minvs commits nbits extra hlt
    apply decide_eq_false
    intro hok
    exact absurd hok.2.2.1 (by omega)
  · intro gens circ pf commitOpt extra hlt
    apply decide_eq_false
    intro hok
    exact absurd hok.1 (by omega)
  · intro a hlt
    unfold secp256k1_bulletproof_circuit_prove
    rw [if_neg]
    intro hok
    exact absurd hok.1 (by omega)

/-- Witness for C5 over `F = ℤ`: one undersized generator set per entry
point. -/
theorem claim5_generator_sizing_witness :
    secp256k1_bulletproof_rangeproof_verify 1
        (⟨⟨[], [], 0, 0⟩, ⟨[], [], 0, 0⟩, ⟨[], [], 0, 0⟩, ⟨[], [], 0, 0⟩, 0, 0, 0,
          [], []⟩ : RangeProof Int) [0] [pedersenCommit 2 0 0] 2 [] = false ∧
    secp256k1_bulletproof_circuit_verify 1
        (⟨0, [[(0, 1)]], [[(0, 1)]], [[]], 0, [10]⟩ : secp256k1_bulletproof_circuit Int)
        ⟨⟨[], [], 0, 0⟩, ⟨[], [], 0, 0⟩, ⟨[], [], 0, 0⟩, ⟨[], [], 0, 0⟩, 0, 0, 0, 0,
          0, [], [], []⟩ none [] = false ∧
    secp256k1_bulletproof_circuit_prove
        (⟨1, ⟨0, [[(0, 1)]], [[(0, 1)]], [[]], 0, [10]⟩, ⟨[3], [7], [21]⟩, none, 5,
          []⟩ : CircProveArgs Int) = none :=
  ⟨(claim5_generator_sizing (F := Int)).1 1 _ [0] [pedersenCommit 2 0 0] 2 []
      (by decide),
    (claim5_generator_sizing (F := Int)).2.1 1 _ _ none [] (by decide),
    (claim5_generator_sizing (F := Int)).2.2 _ (by decide)⟩

/-- Claim C6 (code bug): the header's own comment and the sizing of
`SECP256K1_BULLETPROOF_MAX_PROOF` (`160 + 66*32 + 7`, with `66 = 2*31 + 4`)
say that the maximum supported inner-product depth is 31, supporting an
aggregate of `2^25` 64-bit proofs (`64 * 2^25 = 2^31` bits); the macro
`SECP256K1_BULLETPROOF_MAX_DEPTH` is however defined as 60, so the code
accepts calls (e.g. `64 * 2^26` total bits, depth 32) whose serialized proofs
exceed the documented fixed maximum. -/
theorem claim6_max_depth_contradicts_documentation :
    bulletproofProofSize 31 = SECP256K1_BULLETPROOF_MAX_PROOF ∧
    64 * 2 ^ 25 = 2 ^ 31 ∧
    SECP256K1_BULLETPROOF_MAX_DEPTH = 60 ∧
    SECP256K1_BULLETPROOF_MAX_DEPTH ≠ 31 ∧
    depthOk 64 (2 ^ 26) = true ∧
    2 ^ 31 < 64 * 2 ^ 26 ∧
    SECP256K1_BULLETPROOF_MAX_PROOF <
      bulletproofProofSize SECP256K1_BULLETPROOF_MAX_DEPTH := by
  refine ⟨by decide, by norm_num, by decide, by decide, ?_, by norm_num, by decide⟩
  rw [depthOk]
  apply decide_eq_true
  norm_num [SECP256K1_BULLETPROOF_MAX_DEPTH]

/-- Claim C7: for every well-formed circuit with at least one constraint and a
satisfying assignment, `secp256k1_bulletproof_circuit_prove` followed by
`secp256k1_bulletproof_circuit_verify` succeeds; for a non-satisfying
assignment `prove` returns 0 and refuses to produce a proof. -/
theorem claim7_circuit_prove_verify (a : CircProveArgs F)
    (hg : 2 * nGates a.circ ≤ a.gens) (hwf : circWF a.circ)
    (hp2 : isPow2 (nGates a.circ) = true) (hnc : 1 ≤ nCons a.circ)
    (hbl : ∀ b ∈ a.blinds.getD [], b ≠ 0) :
    (secp256k1_bulletproof_circuit_evaluate a.circ a.assn = true →
      ∃ pf, secp256k1_bulletproof_circuit_prove a = some pf ∧
        secp256k1_bulletproof_circuit_verify a.gens a.circ pf
          (some (cCommits a)) a.extra = true) ∧
    (secp256k1_bulletproof_circuit_evaluate a.circ a.assn = false →
      secp256k1_bulletproof_circuit_prove a = none) := by
  constructor
  · intro hev
    have hevOk : evaluateOk a.circ a.assn := of_decide_eq_true hev
    have hok : circProveOk a := ⟨hg, hwf, hp2, hnc, hbl, hevOk⟩
    refine ⟨honestCircProof a, ?_, ?_⟩
    · unfold secp256k1_bulletproof_circuit_prove
      rw [if_pos hok]
    · unfold secp256k1_bulletproof_circuit_verify
      exact decide_eq_true (circ_verify_completeness a (some (cCommits a)) rfl hok)
  · intro hev
    unfold secp256k1_bulletproof_circuit_prove
    rw [if_neg]
    intro hok
    have : secp256k1_bulletproof_circuit_evaluate a.circ a.assn = true :=
      decide_eq_true hok.2.2.2.2.2
    rw [hev] at this
    exact Bool.false_ne_true this

/-- Witness for C7 over `F = ℤ`: the circuit `x*y = z ∧ x + y = 10` with the
satisfying assignment `(3, 7, 21)` and the non-satisfying assignment
`(3, 7, 20)`. -/
theorem claim7_circuit_prove_verify_witness :
    (∃ pf, secp256k1_bulletproof_circuit_prove
        (⟨2, ⟨0, [[(0, 1)]], [[(0, 1)]], [[]], 0, [10]⟩, ⟨[3], [7], [21]⟩, none, 5,
          []⟩ : CircProveArgs Int) = some pf ∧
      secp256k1_bulletproof_circuit_verify 2
        ⟨0, [[(0, 1)]], [[(0, 1)]], [[]], 0, [10]⟩ pf
        (some (cCommits (⟨2, ⟨0, [[(0, 1)]], [[(0, 1)]], [[]], 0, [10]⟩,
          ⟨[3], [7], [21]⟩, none, 5, []⟩ : CircProveArgs Int))) [] = true) ∧
    secp256k1_bulletproof_circuit_prove
      (⟨2, ⟨0, [[(0, 1)]], [[(0, 1)]], [[]], 0, [10]⟩, ⟨[3], [7], [20]⟩, none, 5,
        []⟩ : CircProveArgs Int) = none :=
  ⟨(claim7_circuit_prove_verify _ (by decide) (by decide) (by decide) (by decide)
      (by decide)).1 (by decide),
    (claim7_circuit_prove_verify _ (by decide) (by decide) (by decide) (by decide)
      (by decide)).2 (by decide)⟩

/-- Claim C8: `secp256k1_bulletproof_circuit_decode` fails (returns nothing)
on every malformed input: any input shorter than the 32-byte header, any
input whose version field differs from
`SECP256K1_BULLETPROOF_CIRCUIT_VERSION`, and any truncation — cutting a
well-formed encoding after any number of bytes short of its full length,
whether the cut lands in the header, in a sparse matrix row, or in the
constant vector — is rejected; and any successfully decoded circuit has all
sparse-row constraint indices in range and a decoded memory footprint within
`SECP256K1_BULLETPROOF_MAX_CIRCUIT` — so an input with an out-of-range index
or an excessive footprint is rejected outright, never partially loaded. -/
theorem claim8_decode_rejects_malformed (bs : List Nat) :
    (bs.length < 32 → secp256k1_bulletproof_circuit_decode (F := F) bs = none) ∧
    (∀ (v : Nat) (rest : List Nat), readLE 4 bs = some (v, rest) →
      v ≠ SECP256K1_BULLETPROOF_CIRCUIT_VERSION →
      secp256k1_bulletproof_circuit_decode (F := F) bs = none) ∧
    (∀ c : secp256k1_bulletproof_circuit F,
      secp256k1_bulletproof_circuit_decode bs = some c →
      (∀ row ∈ c.wL, rowIdxOk (nCons c) row) ∧
      (∀ row ∈ c.wR, rowIdxOk (nCons c) row) ∧
      (∀ row ∈ c.wO, rowIdxOk (nCons c) row) ∧
      circuitFootprint (nGates c) c.nBitsC (nCons c) ≤
        SECP256K1_BULLETPROOF_MAX_CIRCUIT) ∧
    (∀ (ncm : Nat) (wl wr wo : List (List (Nat × Nat))) (nbit : Nat)
        (cs : List Nat) (k : Nat),
      wr.length = wl.length → wo.length = wl.length →
      ncm < 256 ^ 4 → wl.length < 256 ^ 8 → nbit < 256 ^ 8 → cs.length < 256 ^ 8 →
      circuitFootprint wl.length nbit cs.length ≤ SECP256K1_BULLETPROOF_MAX_CIRCUIT →
      rowsOk (encoding_width wl.length) cs.length wl →
      rowsOk (encoding_width wl.length) cs.length wr →
      rowsOk (encoding_width wl.length) cs.length wo →
      k < (encodeCircuit ncm wl wr wo nbit cs).length →
      secp256k1_bulletproof_circuit_decode (F := F)
        ((encodeCircuit ncm wl wr wo nbit cs).take k) = none) := by
  refine ⟨?_, ?_, ?_, ?_⟩
  · exact decode_short
  · intro v rest h4 hv
    exact decode_version h4 hv
  · intro c h
    exact decode_wf h
  · intro ncm wl wr wo nbit cs k hR hO hcm hmul hbit hcon hfp hwl hwr hwo hk
    exact decode_encode_take_none hR hO hcm hmul hbit hcon hfp hwl hwr hwo k hk

/-- Witness for C8 over `F = ℤ`: a version-2 header is rejected, a 5-byte
file (truncated inside the 32-byte header) is rejected, a minimal valid
encoding decodes to a circuit whose indices and footprint satisfy the decoded
invariants, and truncating that 136-byte encoding to 50 bytes (inside the
`WL` sparse rows) or to 120 bytes (inside the constant vector) is
rejected. -/
theorem claim8_decode_rejects_malformed_witness :
    secp256k1_bulletproof_circuit_decode (F := Int) [2, 0, 0, 0] = none ∧
    secp256k1_bulletproof_circuit_decode (F := Int) [1, 0, 0, 0, 0] = none ∧
    secp256k1_bulletproof_circuit_decode (F := Int)
      ((encodeCircuit 0 [[(0, 1)]] [[(0, 1)]] [[]] 0 [10]).take 50) = none ∧
    secp256k1_bulletproof_circuit_decode (F := Int)
      ((encodeCircuit 0 [[(0, 1)]] [[(0, 1)]] [[]] 0 [10]).take 120) = none ∧
    ((∀ row ∈ (⟨0, [[((0 : Nat), (1 : Int))]], [[((0 : Nat), (1 : Int))]], [[]], 0,
        [(10 : Int)]⟩ : secp256k1_bulletproof_circuit Int).wL,
      rowIdxOk (nCons (⟨0, [[((0 : Nat), (1 : Int))]], [[((0 : Nat), (1 : Int))]],
        [[]], 0, [(10 : Int)]⟩ : secp256k1_bulletproof_circuit Int)) row) ∧
     (∀ row ∈ (⟨0, [[((0 : Nat), (1 : Int))]], [[((0 : Nat), (1 : Int))]], [[]], 0,
        [(10 : Int)]⟩ : secp256k1_bulletproof_circuit Int).wR,
      rowIdxOk (nCons (⟨0, [[((0 : Nat), (1 : Int))]], [[((0 : Nat), (1 : Int))]],
        [[]], 0, [(10 : Int)]⟩ : secp256k1_bulletproof_circuit Int)) row) ∧
     (∀ row ∈ (⟨0, [[((0 : Nat), (1 : Int))]], [[((0 : Nat), (1 : Int))]], [[]], 0,
        [(10 : Int)]⟩ : secp256k1_bulletproof_circuit Int).wO,
      rowIdxOk (nCons (⟨0, [[((0 : Nat), (1 : Int))]], [[((0 : Nat), (1 : Int))]],
        [[]], 0, [(10 : Int)]⟩ : secp256k1_bulletproof_circuit Int)) row) ∧
     circuitFootprint
        (nGates (⟨0, [[((0 : Nat), (1 : Int))]], [[((0 : Nat), (1 : Int))]], [[]], 0,
          [(10 : Int)]⟩ : secp256k1_bulletproof_circuit Int))
        (⟨0, [[((0 : Nat), (1 : Int))]], [[((0 : Nat), (1 : Int))]], [[]], 0,
          [(10 : Int)]⟩ : secp256k1_bulletproof_circuit Int).nBitsC
        (nCons (⟨0, [[((0 : Nat), (1 : Int))]], [[((0 : Nat), (1 : Int))]], [[]], 0,
          [(10 : Int)]⟩ : secp256k1_bulletproof_circuit Int)) ≤
        SECP256K1_BULLETPROOF_MAX_CIRCUIT) :=
  ⟨(claim8_decode_rejects_malformed [2, 0, 0, 0]).2.1 2 [] (by decide) (by decide),
    (claim8_decode_rejects_malformed [1, 0, 0, 0, 0]).1 (by decide),
    (claim8_decode_rejects_malformed (F := Int) []).2.2.2 0 [[(0, 1)]] [[(0, 1)]]
      [[]] 0 [10] 50 (by decide) (by decide) (by decide) (by decide) (by decide)
      (by decide) (by decide) (by decide) (by decide) (by decide) (by decide),
    (claim8_decode_rejects_malformed (F := Int) []).2.2.2 0 [[(0, 1)]] [[(0, 1)]]
      [[]] 0 [10] 120 (by decide) (by decide) (by decide) (by decide) (by decide)
      (by decide) (by decide) (by decide) (by decide) (by decide) (by decide),
    (claim8_decode_rejects_malformed
        ([1, 0, 0, 0] ++ [0, 0, 0, 0] ++ [1, 0, 0, 0, 0, 0, 0, 0] ++
          [0, 0, 0, 0, 0, 0, 0, 0] ++ [1, 0, 0, 0, 0, 0, 0, 0] ++
          ([1] ++ ([0] ++ (32 :: 1 :: List.replicate 31 0))) ++
          ([1] ++ ([0] ++ (32 :: 1 :: List.replicate 31 0))) ++ [0] ++
          (32 :: 10 :: List.replicate 31 0))).2.2.1 _ (by decide)⟩

/-- Claim C9: every verification entry point taking a scratch arena — the
rangeproof verifier, the rangeproof batch verifier, the circuit verifier and
the circuit batch verifier — leaves the arena in its pre-call state on every
exit path (success, failure, or allocation failure): a checkpoint is acquired
on entry and the arena is rewound to it before the call returns. -/
theorem claim9_scratch_frame :
    (∀ (s : secp256k1_scratch_space) (gens : Nat) (p : RangeProof F)
        (minvs : List Nat) (commits : List (GroupElt F)) (nbits : Nat)
        (extra : List Nat),
      (rangeproof_verify_with_scratch s gens p minvs commits nbits extra).2 = s) ∧
    (∀ (s : secp256k1_scratch_space) (gens plen : Nat)
        (entries : List (BatchEntry F)) (nbits : Nat),
      (rangeproof_verify_multi_with_scratch s gens plen entries nbits).2 = s) ∧
    (∀ (s : secp256k1_scratch_space) (gens : Nat)
        (circ : secp256k1_bulletproof_circuit F) (pf : CircProof F)
        (commitOpt : Option (List (GroupElt F))) (extra : List Nat),
      (circuit_verify_with_scratch s gens circ pf commitOpt extra).2 = s) ∧
    (∀ (s : secp256k1_scratch_space) (gens plen : Nat)
        (entries : List (CircBatchEntry F)),
      (circuit_verify_multi_with_scratch s gens plen entries).2 = s) := by
  refine ⟨?_, ?_, ?_, ?_⟩
  · intro s gens p minvs commits nbits extra
    unfold rangeproof_verify_with_scratch
    cases hr : runAllocs (rangeVerifyAllocs nbits commits.length) s with
    | none => rfl
    | some s1 =>
      show scratch_apply_checkpoint s1 (scratch_checkpoint s) = s
      rw [scratch_apply_checkpoint, scratch_checkpoint, runAllocs_cap hr]
  · intro s gens plen entries nbits
    unfold rangeproof_verify_multi_with_scratch
    cases hr : runAllocs (multiVerifyAllocs nbits entries) s with
    | none => rfl
    | some s1 =>
      show scratch_apply_checkpoint s1 (scratch_checkpoint s) = s
      rw [scratch_apply_checkpoint, scratch_checkpoint, runAllocs_cap hr]
  · intro s gens circ pf commitOpt extra
    unfold circuit_verify_with_scratch
    cases hr : runAllocs (circVerifyAllocs (nGates circ)) s with
    | none => rfl
    | some s1 =>
      show scratch_apply_checkpoint s1 (scratch_checkpoint s) = s
      rw [scratch_apply_checkpoint, scratch_checkpoint, runAllocs_cap hr]
  · intro s gens plen entries
    unfold circuit_verify_multi_with_scratch
    cases hr : runAllocs (circVerifyMultiAllocs entries) s with
    | none => rfl
    | some s1 =>
      show scratch_apply_checkpoint s1 (scratch_checkpoint s) = s
      rw [scratch_apply_checkpoint, scratch_checkpoint, runAllocs_cap hr]

/-- Claim C10: the rangeproof verifier requires a nonzero commitment count,
while the circuit calls accept zero commitments — with `n_commits = 0` the
commitment array (verify) and the blind array (prove) may be NULL (`none`),
and a zero-commitment circuit prove/verify round trip succeeds. -/
theorem claim10_circuit_accepts_zero_commits :
    (∀ (F : Type) [CommRing F] [DecidableEq F] (gens : Nat) (p : RangeProof F)
        (minvs : List Nat) (nbits : Nat) (extra : List Nat),
      secp256k1_bulletproof_rangeproof_verify gens p minvs [] nbits extra = false) ∧
    (∃ pf : CircProof Int,
      secp256k1_bulletproof_circuit_prove
          (⟨2, ⟨0, [[(0, 1)]], [[(0, 1)]], [[]], 0, [10]⟩, ⟨[3], [7], [21]⟩, none, 5,
            []⟩ : CircProveArgs Int) = some pf ∧
      secp256k1_bulletproof_circuit_verify 2
        ⟨0, [[(0, 1)]], [[(0, 1)]], [[]], 0, [10]⟩ pf none [] = true) := by
  constructor
  · intro F i1 i2 gens p minvs nbits extra
    apply decide_eq_false
    intro hok
    exact hok.1 rfl
  · have hok : circProveOk (⟨2, ⟨0, [[(0, 1)]], [[(0, 1)]], [[]], 0, [10]⟩,
        ⟨[3], [7], [21]⟩, none, 5, []⟩ : CircProveArgs Int) := by decide
    refine ⟨honestCircProof (⟨2, ⟨0, [[(0, 1)]], [[(0, 1)]], [[]], 0, [10]⟩,
      ⟨[3], [7], [21]⟩, none, 5, []⟩ : CircProveArgs Int), ?_, ?_⟩
    · unfold secp256k1_bulletproof_circuit_prove
      rw [if_pos hok]
    · unfold secp256k1_bulletproof_circuit_verify
      exact decide_eq_true (circ_verify_completeness
        (⟨2, ⟨0, [[(0, 1)]], [[(0, 1)]], [[]], 0, [10]⟩, ⟨[3], [7], [21]⟩, none, 5,
          []⟩ : CircProveArgs Int) none rfl hok)

end Secp256k1Bp
